import Mathlib

/-!
Verification of the track-finding core of the alpha-g repository
(`src/physics/src/reconstruction/track_finding.rs`).

The Rust code is shallowly embedded as executable Lean definitions.
`SpacePoint` coordinates are `f64` in the source; all numeric operations the
pipeline performs on them (the conformal map with `sin`/`cos`, the Hough
sampling, the Euclidean distance with `sqrt`) are transcendental floating
point computations, so the pipeline is embedded generically over
* a point type `α` with decidable equality (Rust `SpacePoint` with `==`),
* `bl : α → List Bin` — the sequence of Hough bins `get_bins(point)`
  yields when the returned `HashSet` is iterated (add/remove iterate it), and
* `close : α → α → Bool` — the predicate `distance(a, b) <= max_distance`.
The structural code (the accumulator, `best_cluster`, `largest_cluster`,
the orchestrator `cluster_spacepoints`) is translated statement by statement.
The numeric interior of `get_bins` and of `distance` is embedded separately
over `ℚ` with the transcendental samples abstracted (see `getBinsLoop` and
`distSq` below).
-/

set_option linter.unusedSectionVars false

namespace AlphaG

/-- Rust `Vec::swap_remove(i)`: remove index `i` by moving the last element
into its place (`track_finding.rs` uses it at lines 96, 184, 232). -/
def swapRemove {α : Type} (l : List α) (i : ℕ) : List α :=
  match l.getLast? with
  | none => l
  | some last => (l.set i last).dropLast

/-- Rust `Iterator::position(|p| p == x)`: index of the first occurrence of
`x`, if any (`track_finding.rs` lines 95, 183). -/
def findEq {α : Type} [DecidableEq α] : List α → α → Option ℕ
  | [], _ => none
  | y :: ys, x => if y = x then some 0 else (findEq ys x).map (· + 1)

theorem findEq_none {α : Type} [DecidableEq α] (l : List α) (x : α) :
    findEq l x = none ↔ x ∉ l := by
  induction l with
  | nil => simp [findEq]
  | cons y ys ih =>
    simp only [findEq, List.mem_cons]
    by_cases h : y = x
    · simp [h]
    · rw [if_neg h, Option.map_eq_none', ih, not_or]
      constructor
      · intro hny
        exact ⟨fun hx => h hx.symm, hny⟩
      · intro hc
        exact hc.2

theorem findEq_some {α : Type} [DecidableEq α] (l : List α) (x : α) (i : ℕ)
    (h : findEq l x = some i) : ∃ hi : i < l.length, l.get ⟨i, hi⟩ = x := by
  induction l generalizing i with
  | nil => simp [findEq] at h
  | cons y ys ih =>
    simp only [findEq] at h
    by_cases hyx : y = x
    · rw [if_pos hyx] at h
      obtain rfl : (0 : ℕ) = i := Option.some.inj h
      exact ⟨by simp, hyx⟩
    · rw [if_neg hyx] at h
      cases hf : findEq ys x with
      | none => rw [hf] at h; simp at h
      | some j =>
        rw [hf] at h
        simp only [Option.map_some', Option.some.injEq] at h
        subst h
        obtain ⟨hj, hget⟩ := ih j hf
        exact ⟨by simpa using Nat.succ_lt_succ hj, hget⟩

theorem swapRemove_length {α : Type} (l : List α) (i : ℕ) (h : l ≠ []) :
    (swapRemove l i).length = l.length - 1 := by
  unfold swapRemove
  cases hl : l.getLast? with
  | none => exact absurd (List.getLast?_eq_none_iff.mp hl) h
  | some last => simp

/-- Setting a valid index replaces the old element by the new one, up to
multiset equality. -/
theorem coe_set {α : Type} (l : List α) (i : ℕ) (hi : i < l.length) (a : α) :
    (l.set i a : Multiset α) + {l.get ⟨i, hi⟩} = (l : Multiset α) + {a} := by
  have hset := List.set_eq_take_cons_drop a hi
  have hdecomp : l = l.take i ++ l.get ⟨i, hi⟩ :: l.drop (i + 1) := by
    conv_lhs => rw [← List.take_append_drop i l]
    rw [← List.getElem_cons_drop l i hi]
    rfl
  rw [hset]
  conv_rhs => rw [hdecomp]
  simp only [← Multiset.coe_add, ← Multiset.cons_coe, ← Multiset.singleton_add]
  abel

/-- For a nonempty list, dropping the last element removes one occurrence of
the last element, as a multiset. -/
theorem coe_dropLast {α : Type} (l : List α) (h : l ≠ []) :
    (l.dropLast : Multiset α) + {l.getLast h} = (l : Multiset α) := by
  conv_rhs => rw [← List.dropLast_append_getLast h]
  rw [← Multiset.coe_add]
  rfl

/-- Variant of `coe_dropLast` phrased through `getLast?`. -/
theorem coe_dropLast' {α : Type} (l : List α) (a : α) (h : l.getLast? = some a) :
    (l.dropLast : Multiset α) + {a} = (l : Multiset α) := by
  have hne : l ≠ [] := by
    intro he; subst he; simp at h
  have ha : l.getLast hne = a := by
    rw [List.getLast?_eq_getLast l hne] at h
    exact Option.some.inj h
  rw [← ha]
  exact coe_dropLast l hne

/-- `swapRemove` at a valid index removes exactly one occurrence of the element
at that index, as a multiset. -/
theorem swapRemove_coe {α : Type} (l : List α) (i : ℕ) (hi : i < l.length) :
    (swapRemove l i : Multiset α) + {l.get ⟨i, hi⟩} = (l : Multiset α) := by
  have hne : l ≠ [] := by
    intro h; subst h; simp at hi
  have hlast : l.getLast? = some (l.getLast hne) := List.getLast?_eq_getLast l hne
  unfold swapRemove
  rw [hlast]
  set last := l.getLast hne with hlastdef
  have hl'last : (l.set i last).getLast? = some last := by
    rw [List.getLast?_eq_getElem?, List.length_set, List.getElem?_set]
    by_cases hil : i = l.length - 1
    · rw [if_pos hil, if_pos hi]
    · rw [if_neg hil, ← List.getLast?_eq_getElem?, hlast]
  have h1 := coe_dropLast' (l.set i last) last hl'last
  have h2 := coe_set l i hi last
  have h3 : ((l.set i last).dropLast : Multiset α) + {l.get ⟨i, hi⟩} + {last}
      = (l : Multiset α) + {last} := by
    rw [add_right_comm, h1, h2]
  exact add_right_cancel h3

/-!
### The Hough accumulator

`HoughSpaceAccumulator` (`track_finding.rs` lines 105-197) stores a
`HashMap<(u32, u32), Vec<SpacePoint>>` from Hough bin to the points voting in
that bin.  We model the hash map as an association list whose order records
the map's (arbitrary, per-run) iteration order; `most_popular` iterates the
map, so its result can depend on that order (this drives the `C2` theorems).
New keys are appended at the end, one fixed realization of the arbitrary
insertion position of a hash map.  `bins` below stands for the order in which
the `HashSet` returned by `get_bins(point)` is iterated by `add`/`remove`.
-/

/-- A Hough bin key: `(theta_bin, rho_bin)`, both `u32` in the source. -/
abbrev Bin : Type := ℕ × ℕ

/-- The accumulator map, with its iteration order made explicit. -/
abbrev AccMap (α : Type) : Type := List (Bin × List α)

section Accumulator

variable {α : Type} [DecidableEq α]

/-- The vector of points currently stored in bin `b` (empty if absent). -/
def binList : AccMap α → Bin → List α
  | [], _ => []
  | (k, v) :: rest, b => if k = b then v else binList rest b

/-- Whether the map has an entry for key `b`. -/
def hasBin : AccMap α → Bin → Bool
  | [], _ => false
  | (k, _) :: rest, b => k = b || hasBin rest b

/-- Apply `f` to the vector stored at key `b` (first matching entry). -/
def updateBin : AccMap α → Bin → (List α → List α) → AccMap α
  | [], _, _ => []
  | (k, v) :: rest, b, f =>
      if k = b then (k, f v) :: rest else (k, v) :: updateBin rest b f

/-- `accumulator.entry(bin).or_default().push(point)` (line 174). -/
def pushBin (m : AccMap α) (b : Bin) (p : α) : AccMap α :=
  if hasBin m b then updateBin m b (fun v => v ++ [p]) else m ++ [(b, [p])]

/-- Remove the first occurrence of `p` (by value) from vector `v` via
`position` + `swap_remove` (lines 183-185); a no-op when `p` is absent. -/
def removeFirstSwap (v : List α) (p : α) : List α :=
  match findEq v p with
  | some i => swapRemove v i
  | none => v

/-- One bin step of `HoughSpaceAccumulator::remove` (lines 179-186); a no-op
when the bin is absent (`let Some(v) = ... else continue`). -/
def popBin (m : AccMap α) (b : Bin) (p : α) : AccMap α :=
  if hasBin m b then updateBin m b (fun v => removeFirstSwap v p) else m

/-- `HoughSpaceAccumulator::add` (lines 172-176). -/
def accAdd (bins : List Bin) (m : AccMap α) (p : α) : AccMap α :=
  bins.foldl (fun m' b => pushBin m' b p) m

/-- `HoughSpaceAccumulator::remove` (lines 178-187). -/
def accRemove (bins : List Bin) (m : AccMap α) (p : α) : AccMap α :=
  bins.foldl (fun m' b => popBin m' b p) m

/-- `HoughSpaceAccumulator::most_popular` (lines 190-196): scan the map's
vectors in iteration order keeping the longest one, later entries winning
ties (Rust `Iterator::max_by_key` returns the last maximal element); an empty
vector results when the map is empty (`unwrap_or_default`). -/
def mostPopular (m : AccMap α) : List α :=
  m.foldl (fun best e => if best.length ≤ e.2.length then e.2 else best) []

theorem binList_eq_nil_of_not_has {m : AccMap α} {b : Bin}
    (h : hasBin m b = false) : binList m b = [] := by
  induction m with
  | nil => rfl
  | cons e rest ih =>
    obtain ⟨k, v⟩ := e
    simp only [hasBin, Bool.or_eq_false_iff, decide_eq_false_iff_not] at h
    simp only [binList, if_neg h.1]
    exact ih h.2

theorem updateBin_not_has {m : AccMap α} {b : Bin} {f : List α → List α}
    (h : hasBin m b = false) : updateBin m b f = m := by
  induction m with
  | nil => rfl
  | cons e rest ih =>
    obtain ⟨k, v⟩ := e
    simp only [hasBin, Bool.or_eq_false_iff, decide_eq_false_iff_not] at h
    simp only [updateBin, if_neg h.1]
    rw [ih h.2]

theorem binList_updateBin_of_has {m : AccMap α} {b' b : Bin} {f : List α → List α}
    (hh : hasBin m b' = true) :
    binList (updateBin m b' f) b =
      if b' = b then f (binList m b) else binList m b := by
  induction m with
  | nil => simp [hasBin] at hh
  | cons e rest ih =>
    obtain ⟨k, v⟩ := e
    by_cases hk : k = b'
    · subst hk
      simp only [updateBin, if_pos rfl, binList]
      by_cases hb : k = b
      · subst hb
        rw [if_pos rfl, if_pos rfl, if_pos rfl]
      · rw [if_neg hb, if_neg hb, if_neg (fun h => hb h)]
    · simp only [hasBin, Bool.or_eq_true, decide_eq_true_eq] at hh
      rcases hh with hh | hh
      · exact absurd hh hk
      · simp only [updateBin, if_neg hk, binList]
        by_cases hb : k = b
        · subst hb
          have hne : b' ≠ k := fun h => hk h.symm
          rw [if_pos rfl, if_pos rfl, if_neg hne]
        · rw [if_neg hb, if_neg hb, ih hh]

theorem binList_append (m₁ m₂ : AccMap α) (b : Bin) :
    binList (m₁ ++ m₂) b =
      if hasBin m₁ b then binList m₁ b else binList m₂ b := by
  induction m₁ with
  | nil => simp [binList, hasBin]
  | cons e rest ih =>
    obtain ⟨k, v⟩ := e
    by_cases hk : k = b
    · subst hk
      simp [binList, hasBin]
    · rw [List.cons_append]
      have hstep : binList ((k, v) :: (rest ++ m₂)) b = binList (rest ++ m₂) b := by
        simp [binList, hk]
      rw [hstep, ih]
      have h1 : hasBin ((k, v) :: rest) b = hasBin rest b := by
        simp [hasBin, hk]
      rw [h1]
      by_cases h2 : hasBin rest b = true
      · rw [if_pos h2, if_pos h2]
        simp [binList, hk]
      · rw [if_neg h2, if_neg h2]

/-- Effect of `pushBin` on every bin's vector. -/
theorem binList_pushBin (m : AccMap α) (b' b : Bin) (p : α) :
    binList (pushBin m b' p) b =
      if b' = b then binList m b ++ [p] else binList m b := by
  unfold pushBin
  by_cases hh : hasBin m b' = true
  · rw [if_pos hh, binList_updateBin_of_has hh]
  · have hh' : hasBin m b' = false := by
      simpa using hh
    rw [if_neg (by simp [hh']), binList_append]
    by_cases hb : b' = b
    · subst hb
      rw [if_neg (by simp [hh']), if_pos rfl]
      rw [binList_eq_nil_of_not_has hh']
      simp [binList]
    · rw [if_neg hb]
      by_cases hmb : hasBin m b = true
      · rw [if_pos hmb]
      · rw [if_neg hmb]
        have h2 : binList m b = [] := binList_eq_nil_of_not_has (by simpa using hmb)
        rw [h2]
        simp [binList, hb]

/-- Effect of `popBin` on every bin's vector. -/
theorem binList_popBin (m : AccMap α) (b' b : Bin) (p : α) :
    binList (popBin m b' p) b =
      if b' = b then removeFirstSwap (binList m b) p else binList m b := by
  unfold popBin
  by_cases hh : hasBin m b' = true
  · rw [if_pos hh, binList_updateBin_of_has hh]
  · have hh' : hasBin m b' = false := by
      simpa using hh
    rw [if_neg (by simp [hh'])]
    by_cases hb : b' = b
    · subst hb
      rw [if_pos rfl, binList_eq_nil_of_not_has hh']
      simp [removeFirstSwap, findEq]
    · rw [if_neg hb]

/-- `removeFirstSwap` removes one occurrence of `p` when present; as a
multiset it is truncated subtraction of `{p}`. -/
theorem removeFirstSwap_coe (v : List α) (p : α) :
    (removeFirstSwap v p : Multiset α) = (v : Multiset α) - {p} := by
  unfold removeFirstSwap
  cases hf : findEq v p with
  | none =>
    have hnm : p ∉ v := (findEq_none v p).mp hf
    rw [Multiset.sub_singleton, Multiset.erase_of_not_mem (by simpa using hnm)]
  | some i =>
    obtain ⟨hi, hget⟩ := findEq_some v p i hf
    have hsw := swapRemove_coe v i hi
    rw [hget] at hsw
    rw [← hsw, add_tsub_cancel_right]

theorem coe_append_singleton {α : Type} (l : List α) (a : α) :
    ((l ++ [a] : List α) : Multiset α) = (l : Multiset α) + {a} := by
  rw [← Multiset.coe_singleton, Multiset.coe_add]

/-- Multiset effect of `HoughSpaceAccumulator::add` on every bin: the point is
appended once to each bin it votes for (the bins list has no duplicates since
`get_bins` returns a `HashSet`). -/
theorem binList_accAdd_coe (bins : List Bin) : bins.Nodup →
    ∀ (m : AccMap α) (p : α) (b : Bin),
    (binList (accAdd bins m p) b : Multiset α) =
      (binList m b : Multiset α) + (if b ∈ bins then {p} else 0) := by
  induction bins with
  | nil => intro _ m p b; simp [accAdd]
  | cons b₀ rest ih =>
    intro hnd m p b
    obtain ⟨hb₀, hnd'⟩ := List.nodup_cons.mp hnd
    show (binList (accAdd rest (pushBin m b₀ p) p) b : Multiset α) = _
    rw [ih hnd' (pushBin m b₀ p) p b, binList_pushBin]
    by_cases hbb : b₀ = b
    · subst hbb
      rw [if_pos rfl, if_neg hb₀, if_pos (List.mem_cons_self _ _)]
      rw [coe_append_singleton]
      simp
    · rw [if_neg hbb]
      by_cases hbr : b ∈ rest
      · rw [if_pos hbr, if_pos (by simp [hbr])]
      · rw [if_neg hbr, if_neg (by
          simp only [List.mem_cons, not_or]
          exact ⟨fun h => hbb h.symm, hbr⟩)]

/-- Multiset effect of `HoughSpaceAccumulator::remove` on every bin: one
occurrence of the point is removed from each bin it votes for. -/
theorem binList_accRemove_coe (bins : List Bin) : bins.Nodup →
    ∀ (m : AccMap α) (p : α) (b : Bin),
    (binList (accRemove bins m p) b : Multiset α) =
      (binList m b : Multiset α) - (if b ∈ bins then {p} else 0) := by
  induction bins with
  | nil => intro _ m p b; simp [accRemove]
  | cons b₀ rest ih =>
    intro hnd m p b
    obtain ⟨hb₀, hnd'⟩ := List.nodup_cons.mp hnd
    show (binList (accRemove rest (popBin m b₀ p) p) b : Multiset α) = _
    rw [ih hnd' (popBin m b₀ p) p b, binList_popBin]
    by_cases hbb : b₀ = b
    · subst hbb
      rw [if_pos rfl, if_neg hb₀, if_pos (List.mem_cons_self _ _)]
      rw [removeFirstSwap_coe]
      simp
    · rw [if_neg hbb]
      by_cases hbr : b ∈ rest
      · rw [if_pos hbr, if_pos (by simp [hbr])]
      · rw [if_neg hbr, if_neg (by
          simp only [List.mem_cons, not_or]
          exact ⟨fun h => hbb h.symm, hbr⟩)]

/-- `most_popular` returns either the empty vector or one of the stored
vectors. -/
theorem mostPopular_spec (m : AccMap α) :
    mostPopular m = [] ∨ ∃ e ∈ m, mostPopular m = e.2 := by
  suffices h : ∀ (init : List α),
      m.foldl (fun best e => if best.length ≤ e.2.length then e.2 else best) init = init
      ∨ ∃ e ∈ m,
        m.foldl (fun best e => if best.length ≤ e.2.length then e.2 else best) init = e.2 by
    exact h []
  induction m with
  | nil => intro init; left; rfl
  | cons e rest ih =>
    intro init
    rw [List.foldl_cons]
    by_cases hle : init.length ≤ e.2.length
    · rw [if_pos hle]
      rcases ih e.2 with h | ⟨e', he', h⟩
      · right; exact ⟨e, List.mem_cons_self _ _, h⟩
      · right; exact ⟨e', List.mem_cons_of_mem _ he', h⟩
    · rw [if_neg hle]
      rcases ih init with h | ⟨e', he', h⟩
      · left; exact h
      · right; exact ⟨e', List.mem_cons_of_mem _ he', h⟩

/-- Every stored vector is at most as long as the one `most_popular` returns. -/
theorem le_mostPopular_length (m : AccMap α) :
    ∀ e ∈ m, e.2.length ≤ (mostPopular m).length := by
  suffices h : ∀ (init : List α),
      init.length ≤
        (m.foldl (fun best e => if best.length ≤ e.2.length then e.2 else best) init).length
      ∧ ∀ e ∈ m, e.2.length ≤
        (m.foldl (fun best e => if best.length ≤ e.2.length then e.2 else best) init).length by
    exact (h []).2
  induction m with
  | nil => intro init; exact ⟨le_refl _, by simp⟩
  | cons e rest ih =>
    intro init
    rw [List.foldl_cons]
    by_cases hle : init.length ≤ e.2.length
    · rw [if_pos hle]
      refine ⟨le_trans hle (ih e.2).1, ?_⟩
      intro e' he'
      rcases List.mem_cons.mp he' with rfl | hmem
      · exact (ih e'.2).1
      · exact (ih e.2).2 e' hmem
    · rw [if_neg hle]
      refine ⟨(ih init).1, ?_⟩
      intro e' he'
      rcases List.mem_cons.mp he' with rfl | hmem
      · exact le_trans (le_of_not_le hle) (ih init).1
      · exact (ih init).2 e' hmem

/-- The length of `most_popular`'s result is the maximum bin population. -/
theorem mostPopular_length (m : AccMap α) :
    (mostPopular m).length = m.foldl (fun n e => max n e.2.length) 0 := by
  suffices h : ∀ (init : List α),
      (m.foldl (fun best e => if best.length ≤ e.2.length then e.2 else best) init).length
      = m.foldl (fun n e => max n e.2.length) init.length by
    exact h []
  induction m with
  | nil => intro init; rfl
  | cons e rest ih =>
    intro init
    rw [List.foldl_cons, List.foldl_cons]
    by_cases hle : init.length ≤ e.2.length
    · rw [if_pos hle, ih e.2, max_eq_right hle]
    · rw [if_neg hle, ih init, max_eq_left (le_of_not_le hle)]

/-- The population of the most popular bin does not depend on the hash map's
iteration order: it is invariant under permutation of the entry list. -/
theorem mostPopular_length_perm (m₁ m₂ : AccMap α) (hp : m₁.Perm m₂) :
    (mostPopular m₁).length = (mostPopular m₂).length := by
  rw [mostPopular_length, mostPopular_length]
  refine hp.foldl_eq' (fun x _ y _ z => ?_) 0
  rw [Nat.max_assoc, Nat.max_comm x.2.length y.2.length, ← Nat.max_assoc]

end Accumulator

/-!
### The connectivity filter

`largest_cluster` (`track_finding.rs` lines 222-244) runs a flood fill over a
vector of points: pop a seed off the end, grow a cluster by absorbing (with
`swap_remove`) every remaining point within `max_distance` of some cluster
member, emit the cluster, repeat, and finally return the last cluster of the
stable length-ascending sort — a cluster of maximal size.  The loops are
written with an explicit iteration budget `fuel`; every caller passes the
exact bound proved sufficient below, so the budget is never exhausted.
-/

section LargestCluster

variable {α : Type} [DecidableEq α] (close : α → α → Bool)

/-- The inner `while j < points.len()` loop of `largest_cluster`
(lines 229-236) for a fixed cluster member `x = cluster[i]`: starting at
index `j`, absorb every point close to `x` via `swap_remove` (staying at `j`),
otherwise advance `j`.  Returns the absorbed points (in absorption order) and
the remaining points.  Each iteration decreases `points.length - j`, so
callers pass that as `fuel`. -/
def absorbScan (x : α) : ℕ → ℕ → List α → List α × List α
  | 0, _, pts => ([], pts)
  | fuel + 1, j, pts =>
    if h : j < pts.length then
      if close x (pts.get ⟨j, h⟩) then
        let r := absorbScan x fuel j (swapRemove pts j)
        (pts.get ⟨j, h⟩ :: r.1, r.2)
      else
        absorbScan x fuel (j + 1) pts
    else ([], pts)

/-- `absorbScan` only moves points: absorbed plus remaining is the input,
as a multiset. -/
theorem absorbScan_coe (x : α) (fuel j : ℕ) (pts : List α) :
    ((absorbScan close x fuel j pts).1 : Multiset α)
      + ((absorbScan close x fuel j pts).2 : Multiset α) = (pts : Multiset α) := by
  induction fuel generalizing j pts with
  | zero => simp [absorbScan]
  | succ fuel ih =>
    rw [absorbScan]
    by_cases h : j < pts.length
    · rw [dif_pos h]
      by_cases hc : close x (pts.get ⟨j, h⟩) = true
      · rw [if_pos hc]
        show ((pts.get ⟨j, h⟩ :: (absorbScan close x fuel j (swapRemove pts j)).1 : List α)
            : Multiset α) + _ = _
        rw [← Multiset.cons_coe, Multiset.cons_add]
        have := ih j (swapRemove pts j)
        rw [show ((pts.get ⟨j, h⟩ ::ₘ ((absorbScan close x fuel j (swapRemove pts j)).1
            + (absorbScan close x fuel j (swapRemove pts j)).2 : Multiset α)) : Multiset α)
            = pts.get ⟨j, h⟩ ::ₘ (swapRemove pts j : Multiset α) from by rw [this]]
        rw [← Multiset.singleton_add, add_comm]
        exact swapRemove_coe pts j h
      · rw [if_neg hc]
        exact ih (j + 1) pts
    · rw [dif_neg h]
      simp

/-- Every point `absorbScan` absorbs is close to the scanned cluster member. -/
theorem absorbScan_absorbed_close (x : α) (fuel j : ℕ) (pts : List α) :
    ∀ y ∈ (absorbScan close x fuel j pts).1, close x y = true := by
  induction fuel generalizing j pts with
  | zero => simp [absorbScan]
  | succ fuel ih =>
    rw [absorbScan]
    by_cases h : j < pts.length
    · rw [dif_pos h]
      by_cases hc : close x (pts.get ⟨j, h⟩) = true
      · rw [if_pos hc]
        intro y hy
        rcases List.mem_cons.mp hy with rfl | hmem
        · exact hc
        · exact ih j (swapRemove pts j) y hmem
      · rw [if_neg hc]
        exact ih (j + 1) pts
    · rw [dif_neg h]
      simp

/-- Positions before the scan index are untouched by `swapRemove` at the scan
index. -/
theorem swapRemove_get_lt (l : List α) (i k : ℕ) (hk : k < i) (hi : i < l.length)
    (hk2 : k < (swapRemove l i).length) :
    (swapRemove l i).get ⟨k, hk2⟩ = l.get ⟨k, by omega⟩ := by
  have hne : l ≠ [] := by
    intro h; subst h; simp at hi
  obtain ⟨last, hlast⟩ : ∃ a, l.getLast? = some a :=
    Option.ne_none_iff_exists'.mp (fun h => hne (List.getLast?_eq_none_iff.mp h))
  have heq : swapRemove l i = (l.set i last).dropLast := by
    rw [swapRemove, hlast]
  rw [List.get_eq_getElem, List.get_eq_getElem]
  simp only [heq, List.getElem_dropLast]
  rw [List.getElem_set_ne (by omega : i ≠ k)]

/-- When `absorbScan` is run with enough fuel and every point before index `j`
is already known not to be close to `x`, no remaining point is close to `x`
on exit (the scan is complete). -/
theorem absorbScan_ret_not_close (x : α) (fuel j : ℕ) (pts : List α)
    (hfuel : pts.length - j ≤ fuel)
    (hpre : ∀ k (hk2 : k < pts.length), k < j → close x (pts.get ⟨k, hk2⟩) = false) :
    ∀ y ∈ (absorbScan close x fuel j pts).2, close x y = false := by
  induction fuel generalizing j pts with
  | zero =>
    intro y hy
    have hy' : y ∈ pts := by simpa [absorbScan] using hy
    have hj : pts.length ≤ j := by omega
    obtain ⟨⟨k, hk⟩, rfl⟩ := List.mem_iff_get.mp hy'
    exact hpre k hk (by omega)
  | succ fuel ih =>
    rw [absorbScan]
    by_cases h : j < pts.length
    · rw [dif_pos h]
      by_cases hc : close x (pts.get ⟨j, h⟩) = true
      · rw [if_pos hc]
        show ∀ y ∈ (absorbScan close x fuel j (swapRemove pts j)).2, _
        refine ih j (swapRemove pts j) ?_ ?_
        · rw [swapRemove_length pts j (by intro hh; subst hh; simp at h)]
          omega
        · intro k hk2 hkj
          rw [swapRemove_get_lt pts j k hkj h hk2]
          exact hpre k (by omega) hkj
      · rw [if_neg hc]
        refine ih (j + 1) pts (by omega) ?_
        intro k hk2 hkj
        by_cases hkj' : k < j
        · exact hpre k hk2 hkj'
        · have : k = j := by omega
          subst this
          simpa using hc
    · rw [dif_neg h]
      show ∀ y ∈ pts, close x y = false
      intro y hy
      obtain ⟨⟨k, hk⟩, rfl⟩ := List.mem_iff_get.mp hy
      exact hpre k hk (by omega)

end LargestCluster

section GrowCluster

variable {α : Type} [DecidableEq α] (close : α → α → Bool)

/-- Value-level reachability within a carrier multiset `S`: `b` is reachable
from `a` by a chain of `close` steps whose targets all lie in `S`.  This is
the "connected under the relation distance ≤ threshold" notion of the spec,
restricted to a cluster's points. -/
inductive ReachIn (S : Multiset α) : α → α → Prop
  | refl (a : α) : ReachIn S a a
  | tail {a b c : α} : ReachIn S a b → close b c = true → c ∈ S → ReachIn S a c

theorem ReachIn.mono {close : α → α → Bool} {S T : Multiset α} (hST : S ≤ T)
    {a b : α} (h : ReachIn close S a b) : ReachIn close T a b := by
  induction h with
  | refl => exact ReachIn.refl _
  | tail _ hc hm ih => exact ReachIn.tail ih hc (Multiset.mem_of_le hST hm)

/-- The middle `while i < cluster.len()` loop of `largest_cluster`
(lines 227-238): run the inner scan for each cluster member in turn; absorbed
points are pushed onto the end of the cluster, which therefore grows while it
is being traversed.  Each iteration decreases
`points.length + cluster.length - i`, so callers pass that as `fuel`. -/
def growCluster : ℕ → List α → ℕ → List α → List α × List α
  | 0, cluster, _, pts => (cluster, pts)
  | fuel + 1, cluster, i, pts =>
    if h : i < cluster.length then
      let r := absorbScan close (cluster.get ⟨i, h⟩) pts.length 0 pts
      growCluster fuel (cluster ++ r.1) (i + 1) r.2
    else (cluster, pts)

/-- `growCluster` only moves points from the pool into the cluster. -/
theorem growCluster_coe (fuel : ℕ) (cluster : List α) (i : ℕ) (pts : List α) :
    ((growCluster close fuel cluster i pts).1 : Multiset α)
      + ((growCluster close fuel cluster i pts).2 : Multiset α)
      = (cluster : Multiset α) + (pts : Multiset α) := by
  induction fuel generalizing cluster i pts with
  | zero => simp [growCluster]
  | succ fuel ih =>
    rw [growCluster]
    by_cases h : i < cluster.length
    · rw [dif_pos h]
      rw [ih]
      rw [← Multiset.coe_add]
      rw [add_assoc]
      rw [absorbScan_coe]
    · rw [dif_neg h]

/-- Remaining points after `growCluster` form a sub-multiset of the pool. -/
theorem growCluster_snd_le (fuel : ℕ) (cluster : List α) (i : ℕ) (pts : List α) :
    ((growCluster close fuel cluster i pts).2 : Multiset α)
      ≤ (cluster : Multiset α) + (pts : Multiset α) := by
  rw [← growCluster_coe close fuel cluster i pts]
  exact le_add_self

/-- Every member of the grown cluster is reachable from any point all initial
cluster members are reachable from. -/
theorem growCluster_reach (fuel : ℕ) (cluster : List α) (i : ℕ) (pts : List α)
    (x₀ : α) (hreach : ∀ x ∈ cluster, ReachIn close (cluster : Multiset α) x₀ x) :
    ∀ x ∈ (growCluster close fuel cluster i pts).1,
      ReachIn close ((growCluster close fuel cluster i pts).1 : Multiset α) x₀ x := by
  induction fuel generalizing cluster i pts with
  | zero => simpa [growCluster] using hreach
  | succ fuel ih =>
    rw [growCluster]
    by_cases h : i < cluster.length
    · rw [dif_pos h]
      refine ih (cluster ++ (absorbScan close (cluster.get ⟨i, h⟩) pts.length 0 pts).1)
        (i + 1) (absorbScan close (cluster.get ⟨i, h⟩) pts.length 0 pts).2 ?_
      intro x hx
      have hle : (cluster : Multiset α)
          ≤ ((cluster ++ (absorbScan close (cluster.get ⟨i, h⟩) pts.length 0 pts).1 : List α)
              : Multiset α) := by
        rw [← Multiset.coe_add]
        exact self_le_add_right _ _
      rcases List.mem_append.mp hx with hmem | hmem
      · exact (hreach x hmem).mono hle
      · have hstep : close (cluster.get ⟨i, h⟩) x = true :=
          absorbScan_absorbed_close close (cluster.get ⟨i, h⟩) pts.length 0 pts x hmem
        have hbase : ReachIn close
            ((cluster ++ (absorbScan close (cluster.get ⟨i, h⟩) pts.length 0 pts).1 : List α)
              : Multiset α) x₀ (cluster.get ⟨i, h⟩) :=
          (hreach _ (cluster.get_mem i h)).mono hle
        exact ReachIn.tail hbase hstep (by
          rw [Multiset.mem_coe]
          exact List.mem_append.mpr (Or.inr hmem))
    · rw [dif_neg h]
      simpa using hreach

/-- When `growCluster` is run with enough fuel and the first `i` cluster
members are already closed against the pool, the final cluster is closed
against the final pool: no remaining point is close to any cluster member. -/
theorem growCluster_ret_not_close (fuel : ℕ) (cluster : List α) (i : ℕ) (pts : List α)
    (hfuel : pts.length + cluster.length - i ≤ fuel)
    (hpre : ∀ k (hk : k < cluster.length), k < i →
      ∀ y ∈ pts, close (cluster.get ⟨k, hk⟩) y = false) :
    ∀ x ∈ (growCluster close fuel cluster i pts).1,
      ∀ y ∈ (growCluster close fuel cluster i pts).2, close x y = false := by
  induction fuel generalizing cluster i pts with
  | zero =>
    intro x hx y hy
    have hx' : x ∈ cluster := by simpa [growCluster] using hx
    have hy' : y ∈ pts := by simpa [growCluster] using hy
    obtain ⟨⟨k, hk⟩, rfl⟩ := List.mem_iff_get.mp hx'
    exact hpre k hk (by omega) y hy'
  | succ fuel ih =>
    rw [growCluster]
    by_cases h : i < cluster.length
    · rw [dif_pos h]
      set r := absorbScan close (cluster.get ⟨i, h⟩) pts.length 0 pts with hr
      have hcons : (r.1 : Multiset α) + (r.2 : Multiset α) = (pts : Multiset α) :=
        absorbScan_coe close (cluster.get ⟨i, h⟩) pts.length 0 pts
    -- r.2 is included in pts
      have hsub : ∀ y ∈ r.2, y ∈ pts := by
        intro y hy
        have : (r.2 : Multiset α) ≤ (pts : Multiset α) := by
          rw [← hcons]; exact le_add_self
        exact Multiset.mem_coe.mp (Multiset.mem_of_le this (Multiset.mem_coe.mpr hy))
      have hlen : r.1.length + r.2.length = pts.length := by
        have := congrArg Multiset.card hcons
        simpa using this
      refine ih (cluster ++ r.1) (i + 1) r.2 (by simp; omega) ?_
      intro k hk hki y hy
      by_cases hik : k < i
      · have hkc : k < cluster.length := by omega
        rw [List.get_append k hkc]
        exact hpre k hkc hik y (hsub y hy)
      · have hkeq : k = i := by omega
        subst hkeq
        have hkc : k < cluster.length := h
        rw [List.get_append k hkc]
        exact absorbScan_ret_not_close close (cluster.get ⟨k, hkc⟩) pts.length 0 pts
          (by omega) (by intro a ha hlt; omega) y hy
    · rw [dif_neg h]
      show ∀ x ∈ cluster, ∀ y ∈ pts, close x y = false
      intro x hx y hy
      obtain ⟨⟨k, hk⟩, rfl⟩ := List.mem_iff_get.mp hx
      exact hpre k hk (by omega) y hy

end GrowCluster

section BuildClusters

variable {α : Type} [DecidableEq α] (close : α → α → Bool)

/-- The multiset of all points in a list of clusters. -/
def sumCoe (cs : List (List α)) : Multiset α :=
  (cs.map (fun c => (c : Multiset α))).sum

theorem sumCoe_append (cs ds : List (List α)) :
    sumCoe (cs ++ ds) = sumCoe cs + sumCoe ds := by
  simp [sumCoe]

theorem le_sumCoe_of_mem {cs : List (List α)} {c : List α} (h : c ∈ cs) :
    (c : Multiset α) ≤ sumCoe cs := by
  induction cs with
  | nil => simp at h
  | cons d rest ih =>
    rcases List.mem_cons.mp h with rfl | hmem
    · show (c : Multiset α) ≤ (c : Multiset α) + sumCoe rest
      exact self_le_add_right _ _
    · show (c : Multiset α) ≤ (d : Multiset α) + sumCoe rest
      exact le_add_of_nonneg_of_le (Multiset.zero_le _) (ih hmem)

/-- The outer `while let Some(point) = points.pop()` loop of `largest_cluster`
(lines 225-240): pop the last point as a seed, grow a cluster around it from
the remaining points, push the cluster, and repeat until no points remain.
Each iteration strictly shrinks `points`, so callers pass `points.length` as
`fuel`. -/
def buildClusters : ℕ → List α → List (List α) → List (List α)
  | 0, _, clusters => clusters
  | fuel + 1, pts, clusters =>
    if h : pts = [] then clusters
    else
      let r := growCluster close (pts.dropLast.length + 1) [pts.getLast h] 0 pts.dropLast
      buildClusters fuel r.2 (clusters ++ [r.1])

/-- The cluster only grows during `growCluster`. -/
theorem growCluster_length_le (fuel : ℕ) (cluster : List α) (i : ℕ) (pts : List α) :
    cluster.length ≤ (growCluster close fuel cluster i pts).1.length := by
  induction fuel generalizing cluster i pts with
  | zero => simp [growCluster]
  | succ fuel ih =>
    rw [growCluster]
    by_cases h : i < cluster.length
    · rw [dif_pos h]
      refine le_trans ?_ (ih _ (i + 1) _)
      simp
    · rw [dif_neg h]

/-- The initial cluster is a prefix of the grown cluster. -/
theorem growCluster_fst_prefix (fuel : ℕ) (cluster : List α) (i : ℕ) (pts : List α) :
    ∃ t, (growCluster close fuel cluster i pts).1 = cluster ++ t := by
  induction fuel generalizing cluster i pts with
  | zero => exact ⟨[], by simp [growCluster]⟩
  | succ fuel ih =>
    rw [growCluster]
    by_cases h : i < cluster.length
    · rw [dif_pos h]
      obtain ⟨t, ht⟩ := ih (cluster ++ (absorbScan close (cluster.get ⟨i, h⟩) pts.length 0 pts).1)
        (i + 1) (absorbScan close (cluster.get ⟨i, h⟩) pts.length 0 pts).2
      refine ⟨(absorbScan close (cluster.get ⟨i, h⟩) pts.length 0 pts).1 ++ t, ?_⟩
      rw [ht, List.append_assoc]
    · rw [dif_neg h]
      exact ⟨[], by simp⟩

/-- `buildClusters` only moves points into clusters: with sufficient fuel the
emitted clusters hold exactly the input points (plus whatever was passed in). -/
theorem buildClusters_coe (fuel : ℕ) : ∀ (pts : List α) (cs : List (List α)),
    pts.length ≤ fuel →
    sumCoe (buildClusters close fuel pts cs) = sumCoe cs + (pts : Multiset α) := by
  induction fuel with
  | zero =>
    intro pts cs hfuel
    have : pts = [] := List.length_eq_zero.mp (by omega)
    subst this
    simp [buildClusters]
  | succ fuel ih =>
    intro pts cs hfuel
    rw [buildClusters]
    by_cases h : pts = []
    · rw [dif_pos h]
      subst h
      simp
    · rw [dif_neg h]
      set r := growCluster close (pts.dropLast.length + 1) [pts.getLast h] 0 pts.dropLast
        with hr
      have hcons : (r.1 : Multiset α) + (r.2 : Multiset α)
          = ([pts.getLast h] : Multiset α) + (pts.dropLast : Multiset α) :=
        growCluster_coe close (pts.dropLast.length + 1) [pts.getLast h] 0 pts.dropLast
      have hlenpts : pts.dropLast.length = pts.length - 1 := by simp
      have hptspos : 0 < pts.length := List.length_pos_of_ne_nil h
      have hlen : r.1.length + r.2.length = 1 + pts.dropLast.length := by
        have h2 := congrArg Multiset.card hcons
        simp at h2
        omega
      have hr1 : 1 ≤ r.1.length :=
        growCluster_length_le close (pts.dropLast.length + 1) [pts.getLast h] 0 pts.dropLast
      rw [ih r.2 (cs ++ [r.1]) (by omega)]
      rw [sumCoe_append]
      have hsum1 : sumCoe [r.1] = (r.1 : Multiset α) := by simp [sumCoe]
      rw [hsum1, add_assoc, hcons, Multiset.coe_singleton]
      congr 1
      rw [add_comm]
      exact coe_dropLast pts h

end BuildClusters

section BuildClustersProps

variable {α : Type} [DecidableEq α] (close : α → α → Bool)

/-- A cluster is internally connected: some member reaches every member
through `close` links inside the cluster. -/
def ClusterConn (K : List α) : Prop :=
  ∃ s ∈ K, ∀ x ∈ K, ReachIn close (K : Multiset α) s x

/-- Master invariant of the flood fill: given clusters already closed against
the pool and mutually non-close, all emitted clusters are nonempty, internally
connected, and mutually non-close. -/
theorem buildClusters_props (fuel : ℕ) : ∀ (pts : List α) (cs : List (List α)),
    pts.length ≤ fuel →
    (∀ K ∈ cs, ∀ x ∈ K, ∀ y ∈ pts, close x y = false) →
    cs.Pairwise (fun K K' => ∀ x ∈ K, ∀ y ∈ K', close x y = false) →
    (∀ K ∈ cs, K ≠ [] ∧ ClusterConn close K) →
    (buildClusters close fuel pts cs).Pairwise
        (fun K K' => ∀ x ∈ K, ∀ y ∈ K', close x y = false)
    ∧ ∀ K ∈ buildClusters close fuel pts cs, K ≠ [] ∧ ClusterConn close K := by
  induction fuel with
  | zero =>
    intro pts cs hfuel hclosed hpair hconn
    have : pts = [] := List.length_eq_zero.mp (by omega)
    subst this
    exact ⟨by simpa [buildClusters] using hpair, by simpa [buildClusters] using hconn⟩
  | succ fuel ih =>
    intro pts cs hfuel hclosed hpair hconn
    rw [buildClusters]
    by_cases h : pts = []
    · rw [dif_pos h]
      exact ⟨hpair, hconn⟩
    · rw [dif_neg h]
      set seed := pts.getLast h with hseed
      set r := growCluster close (pts.dropLast.length + 1) [seed] 0 pts.dropLast with hr
      have hcons : (r.1 : Multiset α) + (r.2 : Multiset α)
          = ([seed] : Multiset α) + (pts.dropLast : Multiset α) :=
        growCluster_coe close (pts.dropLast.length + 1) [seed] 0 pts.dropLast
      have hmemofsum : ∀ y : α, y ∈ ([seed] : Multiset α) + (pts.dropLast : Multiset α)
          → y ∈ pts := by
        intro y hy
        rcases Multiset.mem_add.mp hy with h1 | h1
        · have hys : y = seed := by simpa using h1
          rw [hys, hseed]
          exact List.getLast_mem h
        · exact List.dropLast_subset pts (by simpa using h1)
      have hmem2 : ∀ y ∈ r.2, y ∈ pts := by
        intro y hy
        have hle : (r.2 : Multiset α) ≤ ([seed] : Multiset α) + (pts.dropLast : Multiset α) := by
          rw [← hcons]
          exact le_add_self
        exact hmemofsum y (Multiset.mem_of_le hle (Multiset.mem_coe.mpr hy))
      have hmem1 : ∀ y ∈ r.1, y ∈ pts := by
        intro y hy
        have hle : (r.1 : Multiset α) ≤ ([seed] : Multiset α) + (pts.dropLast : Multiset α) := by
          rw [← hcons]
          exact self_le_add_right _ _
        exact hmemofsum y (Multiset.mem_of_le hle (Multiset.mem_coe.mpr hy))
      have hclosed' : ∀ K ∈ cs ++ [r.1], ∀ x ∈ K, ∀ y ∈ r.2, close x y = false := by
        intro K hK x hx y hy
        rcases List.mem_append.mp hK with hKcs | hKr
        · exact hclosed K hKcs x hx y (hmem2 y hy)
        · have hKr1 : K = r.1 := by simpa using hKr
          subst hKr1
          exact growCluster_ret_not_close close (pts.dropLast.length + 1) [seed] 0
            pts.dropLast (by simp) (by intro k hk hlt; omega) x hx y hy
      have hpair' : (cs ++ [r.1]).Pairwise
          (fun K K' => ∀ x ∈ K, ∀ y ∈ K', close x y = false) := by
        rw [List.pairwise_append]
        refine ⟨hpair, by simp, ?_⟩
        intro K hKcs K' hK' x hx y hy
        have hKr1 : K' = r.1 := by simpa using hK'
        subst hKr1
        exact hclosed K hKcs x hx y (hmem1 y hy)
      have hconn' : ∀ K ∈ cs ++ [r.1], K ≠ [] ∧ ClusterConn close K := by
        intro K hK
        rcases List.mem_append.mp hK with hKcs | hKr
        · exact hconn K hKcs
        · have hKr1 : K = r.1 := by simpa using hKr
          subst hKr1
          constructor
          · intro hemp
            have h1 : ([seed] : List α).length ≤ r.1.length :=
              growCluster_length_le close (pts.dropLast.length + 1) [seed] 0 pts.dropLast
            rw [hemp] at h1
            simp at h1
          · obtain ⟨t, ht⟩ :=
              growCluster_fst_prefix close (pts.dropLast.length + 1) [seed] 0 pts.dropLast
            refine ⟨seed, ?_, ?_⟩
            · rw [ht]
              exact List.mem_append.mpr (Or.inl (by simp))
            · refine growCluster_reach close (pts.dropLast.length + 1) [seed] 0 pts.dropLast
                seed ?_
              intro x hx
              have hxs : x = seed := by simpa using hx
              subst hxs
              exact ReachIn.refl _
      have hlenpts : pts.dropLast.length = pts.length - 1 := by simp
      have hptspos : 0 < pts.length := List.length_pos_of_ne_nil h
      have hlen : r.1.length + r.2.length = 1 + pts.dropLast.length := by
        have h2 := congrArg Multiset.card hcons
        simp at h2
        omega
      have hr1 : 1 ≤ r.1.length :=
        growCluster_length_le close (pts.dropLast.length + 1) [seed] 0 pts.dropLast
      exact ih r.2 (cs ++ [r.1]) (by omega) hclosed' hpair' hconn'

/-- `largest_cluster` (lines 222-244): flood-fill all clusters, sort them by
size with Rust's stable ascending sort (`sort_by_key`), and pop the last
cluster (`unwrap_or_default` gives the empty vector when there are none). -/
def largestCluster (pts : List α) : List α :=
  match (List.insertionSort (fun c d => c.length ≤ d.length)
      (buildClusters close pts.length pts [])).getLast? with
  | some c => c
  | none => []

/-- Every element of a `Pairwise` list is related to the last element or is
the last element. -/
theorem pairwise_rel_getLast {β : Type} {r : β → β → Prop} :
    ∀ {l : List β}, l.Pairwise r → ∀ (hne : l ≠ []),
    ∀ x ∈ l, x = l.getLast hne ∨ r x (l.getLast hne) := by
  intro l
  induction l with
  | nil => intro _ hne; exact absurd rfl hne
  | cons a rest ih =>
    intro hp hne x hx
    rcases List.pairwise_cons.mp hp with ⟨hrel, hp'⟩
    by_cases hrest : rest = []
    · subst hrest
      have : x = a := by simpa using hx
      subst this
      left
      simp
    · rw [List.getLast_cons hrest]
      rcases List.mem_cons.mp hx with rfl | hmem
      · right
        exact hrel _ (List.getLast_mem hrest)
      · exact ih hp' hrest x hmem

/-- The returned cluster is one of the flood-fill clusters (or there are
none and it is empty). -/
theorem largestCluster_mem (pts : List α) :
    largestCluster close pts = []
    ∨ largestCluster close pts ∈ buildClusters close pts.length pts [] := by
  unfold largestCluster
  cases hl : (List.insertionSort (fun c d => c.length ≤ d.length)
      (buildClusters close pts.length pts [])).getLast? with
  | none => left; rfl
  | some c =>
    right
    have hmem : c ∈ List.insertionSort (fun c d => c.length ≤ d.length)
        (buildClusters close pts.length pts []) := by
      have hne : List.insertionSort (fun c d => c.length ≤ d.length)
          (buildClusters close pts.length pts []) ≠ [] := by
        intro hemp
        rw [hemp] at hl
        simp at hl
      have := List.getLast?_eq_getLast _ hne
      rw [this] at hl
      rw [← Option.some.inj hl]
      exact List.getLast_mem hne
    exact (List.mem_insertionSort _).mp hmem

/-- The returned cluster is a sub-multiset of the input points. -/
theorem largestCluster_coe_le (pts : List α) :
    (largestCluster close pts : Multiset α) ≤ (pts : Multiset α) := by
  rcases largestCluster_mem close pts with hemp | hmem
  · rw [hemp]
    exact Multiset.zero_le _
  · have h1 : (largestCluster close pts : Multiset α)
        ≤ sumCoe (buildClusters close pts.length pts []) := le_sumCoe_of_mem hmem
    have h2 := buildClusters_coe close pts.length pts [] (le_refl _)
    rw [h2] at h1
    simpa [sumCoe] using h1

/-- No flood-fill cluster is longer than the returned one. -/
theorem largestCluster_max (pts : List α) :
    ∀ K ∈ buildClusters close pts.length pts [],
      K.length ≤ (largestCluster close pts).length := by
  intro K hK
  unfold largestCluster
  cases hl : (List.insertionSort (fun c d => c.length ≤ d.length)
      (buildClusters close pts.length pts [])).getLast? with
  | none =>
    exfalso
    have : List.insertionSort (fun c d => c.length ≤ d.length)
        (buildClusters close pts.length pts []) = [] := by
      simpa using hl
    have hperm := List.perm_insertionSort (fun c d : List α => c.length ≤ d.length)
      (buildClusters close pts.length pts [])
    rw [this] at hperm
    rw [← hperm.nil_eq] at hK
    simp at hK
  | some c =>
    have hne : List.insertionSort (fun c d => c.length ≤ d.length)
        (buildClusters close pts.length pts []) ≠ [] := by
      intro hemp
      rw [hemp] at hl
      simp at hl
    have hsorted : (List.insertionSort (fun c d : List α => c.length ≤ d.length)
        (buildClusters close pts.length pts [])).Sorted
          (fun c d => c.length ≤ d.length) := by
      haveI h1 : IsTotal (List α) (fun c d => c.length ≤ d.length) :=
        ⟨fun a b => Nat.le_total a.length b.length⟩
      haveI h2 : IsTrans (List α) (fun c d : List α => c.length ≤ d.length) :=
        ⟨fun a b c hab hbc => le_trans hab hbc⟩
      exact List.sorted_insertionSort _ _
    have hKmem : K ∈ List.insertionSort (fun c d : List α => c.length ≤ d.length)
        (buildClusters close pts.length pts []) :=
      (List.mem_insertionSort _).mpr hK
    have hc : c = (List.insertionSort (fun c d : List α => c.length ≤ d.length)
        (buildClusters close pts.length pts [])).getLast hne := by
      have := List.getLast?_eq_getLast _ hne
      rw [this] at hl
      exact (Option.some.inj hl).symm
    rcases pairwise_rel_getLast hsorted hne K hKmem with heq | hrel
    · rw [heq, ← hc]
    · rw [← hc] at hrel
      exact hrel

end BuildClustersProps

/-!
### The greedy extractor and the orchestrator
-/

/-- `ClusteringResult` is declared in the `reconstruction` module of the
`physics` crate, whose file is not part of this source tree.  Modelled from
the spec §3: a sequence of clusters plus a remainder collection of points;
the `Cluster` newtype is modelled as a bare list of points. -/
structure ClusteringResult (α : Type) where
  clusters : List (List α)
  remainder : List α
deriving DecidableEq, Repr

section Pipeline

variable {α : Type} [DecidableEq α] (bl : α → List Bin) (close : α → α → Bool)

/-- `for &point in best.iter() { accumulator.remove(point); }` (lines 69-71). -/
def accRemoveAll (acc : AccMap α) (ps : List α) : AccMap α :=
  ps.foldl (fun m p => accRemove (bl p) m p) acc

/-- `for &point in prev_best.iter() { accumulator.add(point); }`
(lines 72-74); also the orchestrator's initial fill (lines 49-51). -/
def accAddAll (acc : AccMap α) (ps : List α) : AccMap α :=
  ps.foldl (fun m p => accAdd (bl p) m p) acc

/-- Multiset effect of adding a batch of points: each bin gains the points of
the batch that vote for it. -/
theorem binList_accAddAll (hnd : ∀ p : α, (bl p).Nodup) (acc : AccMap α)
    (ps : List α) (b : Bin) :
    (binList (accAddAll bl acc ps) b : Multiset α)
      = (binList acc b : Multiset α)
        + (ps.filter (fun p => decide (b ∈ bl p)) : Multiset α) := by
  induction ps generalizing acc with
  | nil => simp [accAddAll]
  | cons p ps ih =>
    show (binList (accAddAll bl (accAdd (bl p) acc p) ps) b : Multiset α) = _
    rw [ih (accAdd (bl p) acc p)]
    rw [binList_accAdd_coe (bl p) (hnd p) acc p b]
    rw [List.filter_cons]
    by_cases hb : b ∈ bl p
    · rw [if_pos hb, if_pos (by simpa using hb)]
      rw [← Multiset.cons_coe, ← Multiset.singleton_add]
      rw [add_assoc, add_comm ({p} : Multiset α), ← add_assoc]
    · rw [if_neg hb, if_neg (by simpa using hb)]
      rw [add_zero]

/-- Multiset effect of removing a batch of points: each bin loses one
occurrence of each point of the batch that votes for it. -/
theorem binList_accRemoveAll (hnd : ∀ p : α, (bl p).Nodup) (acc : AccMap α)
    (ps : List α) (b : Bin) :
    (binList (accRemoveAll bl acc ps) b : Multiset α)
      = (binList acc b : Multiset α)
        - (ps.filter (fun p => decide (b ∈ bl p)) : Multiset α) := by
  induction ps generalizing acc with
  | nil => simp [accRemoveAll]
  | cons p ps ih =>
    show (binList (accRemoveAll bl (accRemove (bl p) acc p) ps) b : Multiset α) = _
    rw [ih (accRemove (bl p) acc p)]
    rw [binList_accRemove_coe (bl p) (hnd p) acc p b]
    rw [List.filter_cons]
    by_cases hb : b ∈ bl p
    · rw [if_pos hb, if_pos (by simpa using hb)]
      rw [← Multiset.cons_coe, ← Multiset.singleton_add, tsub_tsub]
    · rw [if_neg hb, if_neg (by simpa using hb)]
      rw [tsub_zero]

/-- The `loop` of `best_cluster` (lines 57-80): query the most popular bin
and connectivity-filter it; if the candidate is no larger than the best so
far, stop and return the best so far with the accumulator untouched;
otherwise remove the candidate's points from the accumulator, restore the
previous best's points, and repeat.  `none` signals iteration-budget
exhaustion; the termination theorem proves the total point count plus one is
always a sufficient budget. -/
def bestClusterGo : ℕ → AccMap α → List α → Option (AccMap α × List α)
  | 0, _, _ => none
  | fuel + 1, acc, prev =>
    let best := largestCluster close (mostPopular acc)
    if best.length ≤ prev.length then some (acc, prev)
    else bestClusterGo fuel (accAddAll bl (accRemoveAll bl acc best) prev) best

/-- The orchestrator's `while clusters.len() < max_num_clusters` loop
(lines 83-90): repeatedly extract the best cluster, stopping early when it
is smaller than `min_num_points_per_cluster` (the too-small candidate's
points remain removed from the accumulator but are not emitted).  `slots`
is the number of clusters still allowed. -/
def clusterLoop (fuel minC : ℕ) : ℕ → AccMap α → Option (List (List α) × AccMap α)
  | 0, acc => some ([], acc)
  | slots + 1, acc =>
    match bestClusterGo bl close fuel acc [] with
    | none => none
    | some (acc', c) =>
      if c.length < minC then some ([], acc')
      else
        match clusterLoop fuel minC slots acc' with
        | none => none
        | some (cs, acc'') => some (c :: cs, acc'')

/-- The remainder computation (lines 91-97): for each clustered point, find
its first occurrence in `sp` by exact value equality (`position`) and
`swap_remove` it; `none` models the `unwrap` panic on a missing point. -/
def removeAll : List α → List α → Option (List α)
  | sp, [] => some sp
  | sp, p :: ps =>
    match findEq sp p with
    | some i => removeAll (swapRemove sp i) ps
    | none => none

/-- `cluster_spacepoints` (lines 20-103).  The `rho_max` fold over the
conformal-mapped points (lines 28-41) returns early exactly when the input
is empty (`reduce` of an empty iterator); the numeric value of `rho_max` is
absorbed into the abstract `bl`.  Otherwise the accumulator is filled with
every point (lines 43-51), clusters are extracted greedily under the two
stopping conditions (lines 82-90), and the remainder is what is left of the
input after removing every clustered point by value (lines 91-102). -/
def clusterSpacepoints (sp : List α) (maxC minC : ℕ) : Option (ClusteringResult α) :=
  if sp = [] then some ⟨[], sp⟩
  else
    match clusterLoop bl close (sp.length + 1) minC maxC (accAddAll bl [] sp) with
    | none => none
    | some (cs, _) =>
      match removeAll sp cs.flatten with
      | some rem => some ⟨cs, rem⟩
      | none => none

end Pipeline

section Invariant

variable {α : Type} [DecidableEq α] (bl : α → List Bin) (close : α → α → Bool)

/-- Well-formed accumulator: bin keys are pairwise distinct (as for a hash
map).  Every accumulator the pipeline builds is well-formed. -/
def AccWF (acc : AccMap α) : Prop := (acc.map Prod.fst).Nodup

theorem accWF_nil : AccWF ([] : AccMap α) := List.nodup_nil

theorem hasBin_false_iff (m : AccMap α) (b : Bin) :
    hasBin m b = false ↔ b ∉ m.map Prod.fst := by
  induction m with
  | nil => simp [hasBin]
  | cons e rest ih =>
    obtain ⟨k, v⟩ := e
    simp only [hasBin, Bool.or_eq_false_iff, decide_eq_false_iff_not, List.map_cons,
      List.mem_cons, not_or, ih]
    constructor
    · intro hc
      exact ⟨fun h => hc.1 h.symm, hc.2⟩
    · intro hc
      exact ⟨fun h => hc.1 h.symm, hc.2⟩

theorem keys_updateBin (m : AccMap α) (b : Bin) (f : List α → List α) :
    (updateBin m b f).map Prod.fst = m.map Prod.fst := by
  induction m with
  | nil => rfl
  | cons e rest ih =>
    obtain ⟨k, v⟩ := e
    by_cases hk : k = b
    · simp [updateBin, hk]
    · simp only [updateBin, if_neg hk, List.map_cons, ih]

theorem accWF_pushBin {m : AccMap α} (hwf : AccWF m) (b : Bin) (p : α) :
    AccWF (pushBin m b p) := by
  unfold pushBin
  by_cases hh : hasBin m b = true
  · rw [if_pos hh]
    unfold AccWF
    rw [keys_updateBin]
    exact hwf
  · rw [if_neg (by simpa using hh)]
    unfold AccWF
    rw [List.map_append]
    rw [List.nodup_append]
    refine ⟨hwf, by simp, ?_⟩
    intro x hx
    have hb : b ∉ m.map Prod.fst := (hasBin_false_iff m b).mp (by simpa using hh)
    simp only [List.map_cons, List.map_nil, List.mem_singleton]
    intro hxb
    subst hxb
    exact hb hx

theorem accWF_popBin {m : AccMap α} (hwf : AccWF m) (b : Bin) (p : α) :
    AccWF (popBin m b p) := by
  unfold popBin
  by_cases hh : hasBin m b = true
  · rw [if_pos hh]
    unfold AccWF
    rw [keys_updateBin]
    exact hwf
  · rw [if_neg (by simpa using hh)]
    exact hwf

theorem accWF_accAdd {m : AccMap α} (hwf : AccWF m) (bins : List Bin) (p : α) :
    AccWF (accAdd bins m p) := by
  induction bins generalizing m with
  | nil => exact hwf
  | cons b rest ih =>
    show AccWF (accAdd rest (pushBin m b p) p)
    exact ih (accWF_pushBin hwf b p)

theorem accWF_accRemove {m : AccMap α} (hwf : AccWF m) (bins : List Bin) (p : α) :
    AccWF (accRemove bins m p) := by
  induction bins generalizing m with
  | nil => exact hwf
  | cons b rest ih =>
    show AccWF (accRemove rest (popBin m b p) p)
    exact ih (accWF_popBin hwf b p)

theorem accWF_accAddAll {m : AccMap α} (hwf : AccWF m) (ps : List α) :
    AccWF (accAddAll bl m ps) := by
  induction ps generalizing m with
  | nil => exact hwf
  | cons p rest ih =>
    show AccWF (accAddAll bl (accAdd (bl p) m p) rest)
    exact ih (accWF_accAdd hwf (bl p) p)

theorem accWF_accRemoveAll {m : AccMap α} (hwf : AccWF m) (ps : List α) :
    AccWF (accRemoveAll bl m ps) := by
  induction ps generalizing m with
  | nil => exact hwf
  | cons p rest ih =>
    show AccWF (accRemoveAll bl (accRemove (bl p) m p) rest)
    exact ih (accWF_accRemove hwf (bl p) p)

/-- In a well-formed accumulator, every stored entry is retrieved by its key. -/
theorem binList_entry {m : AccMap α} (hwf : AccWF m) {e : Bin × List α}
    (he : e ∈ m) : binList m e.1 = e.2 := by
  induction m with
  | nil => simp at he
  | cons e₀ rest ih =>
    obtain ⟨k, v⟩ := e₀
    obtain ⟨hk, hwf'⟩ := List.nodup_cons.mp hwf
    rcases List.mem_cons.mp he with rfl | hmem
    · simp [binList]
    · have hke : k ≠ e.1 := by
        intro hke
        apply hk
        rw [hke]
        exact List.mem_map.mpr ⟨e, hmem, rfl⟩
      simp only [binList, if_neg hke]
      exact ih hwf' hmem

/-- The accumulator states the pipeline reaches: every bin holds exactly the
members of the available multiset `V` that vote for it (with multiplicity). -/
def GOOD (V : Multiset α) (acc : AccMap α) : Prop :=
  ∀ b : Bin, (binList acc b : Multiset α) = V.filter (fun p => b ∈ bl p)

/-- The freshly filled accumulator (lines 43-51) is `GOOD` for the input
multiset. -/
theorem GOOD_init (hnd : ∀ p : α, (bl p).Nodup) (sp : List α) :
    GOOD bl (sp : Multiset α) (accAddAll bl [] sp) := by
  intro b
  rw [binList_accAddAll bl hnd [] sp b]
  show (0 : Multiset α) + _ = _
  rw [zero_add, ← Multiset.filter_coe]

/-- In a reachable accumulator, `most_popular` returns a sub-multiset of the
available points. -/
theorem mostPopular_le_of_GOOD {V : Multiset α} {acc : AccMap α}
    (hwf : AccWF acc) (hg : GOOD bl V acc) :
    (mostPopular acc : Multiset α) ≤ V := by
  rcases mostPopular_spec acc with hemp | ⟨e, hmem, heq⟩
  · rw [hemp]
    exact Multiset.zero_le _
  · rw [heq, ← binList_entry hwf hmem, hg e.1]
    exact Multiset.filter_le _ _

end Invariant

section ExtractorSpec

variable {α : Type} [DecidableEq α] (bl : α → List Bin) (close : α → α → Bool)

/-- Coercion form of `Multiset.filter` on a list filtered by a decidable
predicate. -/
theorem coe_list_filter (l : List α) (p : α → Prop) [DecidablePred p] :
    ((l.filter (fun a => decide (p a)) : List α) : Multiset α)
      = Multiset.filter p (l : Multiset α) := rfl

/-- Master specification of the `best_cluster` loop (lines 57-80): from a
reachable accumulator state, the loop returns within `card V + 1` iterations
(no fuel exhaustion), the winning cluster is drawn from the available points
`V`, the accumulator ends with exactly the winner's votes removed (it stays
reachable, with `V` minus the winner available), the winner is at least as
large as the incoming candidate, and on exit no strictly larger candidate
remains. -/
theorem bestClusterGo_spec (hnd : ∀ p : α, (bl p).Nodup) (V : Multiset α) :
    ∀ (fuel : ℕ) (acc : AccMap α) (prev : List α),
    AccWF acc → GOOD bl (V - (prev : Multiset α)) acc → (prev : Multiset α) ≤ V →
    V.card + 1 - prev.length ≤ fuel →
    ∃ acc' w, bestClusterGo bl close fuel acc prev = some (acc', w)
      ∧ AccWF acc' ∧ GOOD bl (V - (w : Multiset α)) acc'
      ∧ (w : Multiset α) ≤ V
      ∧ prev.length ≤ w.length
      ∧ (largestCluster close (mostPopular acc')).length ≤ w.length := by
  intro fuel
  induction fuel with
  | zero =>
    intro acc prev hwf hg hpV hfuel
    exfalso
    have hcard : prev.length ≤ V.card := by
      have h1 := Multiset.card_le_card hpV
      rw [Multiset.coe_card] at h1
      exact h1
    omega
  | succ fuel ih =>
    intro acc prev hwf hg hpV hfuel
    by_cases hstop : (largestCluster close (mostPopular acc)).length ≤ prev.length
    · refine ⟨acc, prev, ?_, hwf, hg, hpV, le_refl _, hstop⟩
      rw [bestClusterGo, if_pos hstop]
    · have hmp : (mostPopular acc : Multiset α) ≤ V - (prev : Multiset α) :=
        mostPopular_le_of_GOOD bl hwf hg
      have hbestle : (largestCluster close (mostPopular acc) : Multiset α)
          ≤ V - (prev : Multiset α) :=
        le_trans (largestCluster_coe_le close (mostPopular acc)) hmp
      have hsum : (prev : Multiset α)
          + (largestCluster close (mostPopular acc) : Multiset α) ≤ V := by
        rw [add_comm]
        exact (le_tsub_iff_right hpV).mp hbestle
      have hbestV : (largestCluster close (mostPopular acc) : Multiset α) ≤ V :=
        le_trans hbestle tsub_le_self
      have hprevVb : (prev : Multiset α)
          ≤ V - (largestCluster close (mostPopular acc) : Multiset α) :=
        (le_tsub_iff_right hbestV).mpr hsum
      have hwf₂ : AccWF (accAddAll bl
          (accRemoveAll bl acc (largestCluster close (mostPopular acc))) prev) :=
        accWF_accAddAll bl (accWF_accRemoveAll bl hwf _) prev
      have hg₂ : GOOD bl (V - (largestCluster close (mostPopular acc) : Multiset α))
          (accAddAll bl
            (accRemoveAll bl acc (largestCluster close (mostPopular acc))) prev) := by
        intro b
        rw [binList_accAddAll bl hnd _ prev b,
          binList_accRemoveAll bl hnd acc (largestCluster close (mostPopular acc)) b]
        rw [hg b]
        rw [coe_list_filter, coe_list_filter]
        rw [← Multiset.filter_sub, ← Multiset.filter_add]
        congr 1
        rw [tsub_tsub,
          add_comm (prev : Multiset α) (largestCluster close (mostPopular acc) : Multiset α),
          ← tsub_tsub]
        exact tsub_add_cancel_of_le hprevVb
      have hbcard : (largestCluster close (mostPopular acc)).length ≤ V.card := by
        have h1 := Multiset.card_le_card hbestV
        rw [Multiset.coe_card] at h1
        exact h1
      obtain ⟨acc', w, heq, hwf', hg', hwV, hlenw, hexit⟩ :=
        ih (accAddAll bl
            (accRemoveAll bl acc (largestCluster close (mostPopular acc))) prev)
          (largestCluster close (mostPopular acc)) hwf₂ hg₂ hbestV (by omega)
      refine ⟨acc', w, ?_, hwf', hg', hwV, ?_, hexit⟩
      · rw [bestClusterGo, if_neg hstop]
        exact heq
      · omega

end ExtractorSpec

section OrchestratorSpec

variable {α : Type} [DecidableEq α] (bl : α → List Bin) (close : α → α → Bool)

/-- Specification of the orchestrator's extraction loop (lines 82-90): it
never exhausts the extractor's iteration budget, emits at most `slots`
clusters, every emitted cluster meets the minimum size, and the emitted
points are drawn (with multiplicity) from the available points. -/
theorem clusterLoop_spec (hnd : ∀ p : α, (bl p).Nodup) :
    ∀ (slots : ℕ) (V : Multiset α) (acc : AccMap α) (fuel minC : ℕ),
    AccWF acc → GOOD bl V acc → V.card + 1 ≤ fuel →
    ∃ cs acc'', clusterLoop bl close fuel minC slots acc = some (cs, acc'')
      ∧ sumCoe cs ≤ V
      ∧ cs.length ≤ slots
      ∧ ∀ c ∈ cs, minC ≤ c.length := by
  intro slots
  induction slots with
  | zero =>
    intro V acc fuel minC hwf hg hfuel
    exact ⟨[], acc, rfl, by simp [sumCoe], le_refl _, by simp⟩
  | succ slots ih =>
    intro V acc fuel minC hwf hg hfuel
    have hg0 : GOOD bl (V - (([] : List α) : Multiset α)) acc := by
      simpa using hg
    obtain ⟨acc', w, heq, hwf', hg', hwV, _, _⟩ :=
      bestClusterGo_spec bl close hnd V fuel acc [] hwf hg0 (by simp) (by simp; omega)
    have hloop : clusterLoop bl close fuel minC (slots + 1) acc
        = if w.length < minC then some ([], acc')
          else match clusterLoop bl close fuel minC slots acc' with
            | none => none
            | some (cs, acc'') => some (w :: cs, acc'') := by
      rw [clusterLoop, heq]
    by_cases hmin : w.length < minC
    · exact ⟨[], acc', by rw [hloop, if_pos hmin], by simp [sumCoe], by simp, by simp⟩
    · have hcard' : (V - (w : Multiset α)).card + 1 ≤ fuel := by
        have h1 := Multiset.card_le_card (tsub_le_self (a := V) (b := (w : Multiset α)))
        omega
      obtain ⟨cs, acc'', heq2, hsum, hlen, hminall⟩ :=
        ih (V - (w : Multiset α)) acc' fuel minC hwf' hg' hcard'
      refine ⟨w :: cs, acc'', ?_, ?_, by simpa using Nat.succ_le_succ hlen, ?_⟩
      · rw [hloop, if_neg hmin, heq2]
      · show (w : Multiset α) + sumCoe cs ≤ V
        calc (w : Multiset α) + sumCoe cs
            ≤ (w : Multiset α) + (V - (w : Multiset α)) := by
              exact add_le_add_left hsum _
          _ = V := by
              rw [add_comm]
              exact tsub_add_cancel_of_le hwV
      · intro c hc
        rcases List.mem_cons.mp hc with rfl | hmem
        · omega
        · exact hminall c hmem

/-- Specification of the remainder computation (lines 91-97): when the
points to remove are a sub-multiset of `sp`, every `position` lookup
succeeds (no panic) and the result is the multiset difference. -/
theorem removeAll_spec : ∀ (rm sp : List α), (rm : Multiset α) ≤ (sp : Multiset α) →
    ∃ rem, removeAll sp rm = some rem
      ∧ (rem : Multiset α) = (sp : Multiset α) - (rm : Multiset α) := by
  intro rm
  induction rm with
  | nil =>
    intro sp _
    exact ⟨sp, rfl, by simp⟩
  | cons p ps ih =>
    intro sp hle
    have hple : ({p} : Multiset α) + (ps : Multiset α) ≤ (sp : Multiset α) := by
      rw [Multiset.singleton_add]
      exact le_trans (le_of_eq (Multiset.cons_coe p ps).symm) hle
    have hpmem : p ∈ sp := by
      have : p ∈ (sp : Multiset α) :=
        Multiset.mem_of_le hle (by rw [← Multiset.cons_coe]; exact Multiset.mem_cons_self _ _)
      simpa using this
    cases hfind : findEq sp p with
    | none => exact absurd ((findEq_none sp p).mp hfind) (by simpa using hpmem)
    | some i =>
      obtain ⟨hi, hget⟩ := findEq_some sp p i hfind
      have hsw : (swapRemove sp i : Multiset α) = (sp : Multiset α) - {p} := by
        have h1 := swapRemove_coe sp i hi
        rw [hget] at h1
        rw [← h1, add_tsub_cancel_right]
      have hps : (ps : Multiset α) ≤ (swapRemove sp i : Multiset α) := by
        rw [hsw]
        have hp1 : ({p} : Multiset α) ≤ (sp : Multiset α) := by
          rw [Multiset.singleton_le]
          simpa using hpmem
        rw [le_tsub_iff_right hp1]
        rw [add_comm] at hple
        exact hple
      obtain ⟨rem, heq, hcoe⟩ := ih (swapRemove sp i) hps
      refine ⟨rem, ?_, ?_⟩
      · rw [removeAll, hfind]
        exact heq
      · rw [hcoe, hsw, tsub_tsub, Multiset.singleton_add, Multiset.cons_coe]

/-- The flattened cluster list carries the same multiset as `sumCoe`. -/
theorem coe_flatten (cs : List (List α)) :
    (cs.flatten : Multiset α) = sumCoe cs := by
  induction cs with
  | nil => simp [sumCoe]
  | cons c rest ih =>
    show ((c ++ rest.flatten : List α) : Multiset α) = _
    rw [← Multiset.coe_add, ih]
    rfl

/-- Master specification of `cluster_spacepoints` (lines 20-103): the call
always returns (the remainder `unwrap` never panics and the internal loops
terminate), the result is an exact partition of the input multiset, at most
`maxC` clusters are emitted, and each meets the minimum size. -/
theorem clusterSpacepoints_spec (hnd : ∀ p : α, (bl p).Nodup)
    (sp : List α) (maxC minC : ℕ) :
    ∃ res, clusterSpacepoints bl close sp maxC minC = some res
      ∧ sumCoe res.clusters + (res.remainder : Multiset α) = (sp : Multiset α)
      ∧ res.clusters.length ≤ maxC
      ∧ ∀ c ∈ res.clusters, minC ≤ c.length := by
  by_cases hsp : sp = []
  · subst hsp
    exact ⟨⟨[], []⟩, rfl, by simp [sumCoe], by simp, by simp⟩
  · have hwf0 : AccWF (accAddAll bl [] sp) := accWF_accAddAll bl accWF_nil sp
    have hg0 : GOOD bl (sp : Multiset α) (accAddAll bl [] sp) := GOOD_init bl hnd sp
    obtain ⟨cs, acc'', heq, hsum, hlen, hmin⟩ :=
      clusterLoop_spec bl close hnd maxC (sp : Multiset α) (accAddAll bl [] sp)
        (sp.length + 1) minC hwf0 hg0 (by simp)
    have hflat : (cs.flatten : Multiset α) ≤ (sp : Multiset α) := by
      rw [coe_flatten]
      exact hsum
    obtain ⟨rem, heqrem, hremcoe⟩ := removeAll_spec cs.flatten sp hflat
    refine ⟨⟨cs, rem⟩, ?_, ?_, hlen, hmin⟩
    · rw [clusterSpacepoints, if_neg hsp, heq]
      show (match removeAll sp cs.flatten with
        | some rem => some (⟨cs, rem⟩ : ClusteringResult α)
        | none => none) = some (⟨cs, rem⟩ : ClusteringResult α)
      rw [heqrem]
    · show sumCoe cs + (rem : Multiset α) = (sp : Multiset α)
      rw [hremcoe, coe_flatten]
      rw [add_comm]
      exact tsub_add_cancel_of_le hsum

end OrchestratorSpec

/-!
### The interior of `get_bins`

`HoughSpaceAccumulator::get_bins` (lines 130-170) samples the sinusoid
`rho(theta) = u * cos(theta) + v * sin(theta)` at `theta_bins` uniformly
spaced angles and collects the Hough bins the point votes for.  The `f64`
arithmetic is modelled over `ℚ`: `rhoSeq t` abstracts the computed sample at
angle index `t` (`rhoSeq 0` stands for `u`, the sample the code uses at
`theta = 0`), and `deltaRho` abstracts the computed bin width
`rho_max / rho_bins`.  `is_sign_positive` on a `ℚ` value is `0 ≤ x` (ℚ has
no negative zero), the floor is exact, and the `as u32` cast saturates
negative values to `0` and large values to `2^32 - 1`, exactly as in Rust.
-/

/-- Rust `f64 as u32` applied to an exact integer: truncation with
saturation at `0` and `u32::MAX`. -/
def castU32 (z : ℤ) : ℕ :=
  if z < 0 then 0 else min z.toNat (2 ^ 32 - 1)

/-- `(rho / delta_rho).get::<ratio>().floor() as u32` (lines 142 and 150). -/
def rhoBinOf (deltaRho rho : ℚ) : ℕ := castU32 ⌊rho / deltaRho⌋

/-- The `for theta_bin in 1..=self.theta_bins` loop of `get_bins`
(lines 143-167), with `steps` iterations left, current angle index `t`, and
the loop-carried `prev_rho`/`prev_rho_bin`.  A step votes for every bin
between the previous and the current bin index (inclusive) unless the raw
`rho` is negative at both the previous and the current sample. -/
def getBinsLoop (deltaRho : ℚ) (rhoSeq : ℕ → ℚ) :
    ℕ → ℕ → ℚ → ℕ → Finset Bin → Finset Bin
  | 0, _, _, _, bins => bins
  | steps + 1, t, prevRho, prevBin, bins =>
    getBinsLoop deltaRho rhoSeq steps (t + 1) (rhoSeq t) (rhoBinOf deltaRho (rhoSeq t))
      (if 0 ≤ rhoSeq t ∨ 0 ≤ prevRho then
        bins ∪ (Finset.Icc (min prevBin (rhoBinOf deltaRho (rhoSeq t)))
          (max prevBin (rhoBinOf deltaRho (rhoSeq t)))).image (fun rb => (t - 1, rb))
      else bins)

/-- `get_bins` (lines 130-170) with the transcendental samples abstracted:
the loop starts at `theta_bin = 1` with `prev_rho = u = rhoSeq 0` and
`prev_rho_bin` computed from it (lines 141-142); the result is a `HashSet`,
modelled as a `Finset` (each `(theta_bin, rho_bin)` key occurs at most once
however many sample steps touch it). -/
def getBins (deltaRho : ℚ) (rhoSeq : ℕ → ℚ) (thetaBins : ℕ) : Finset Bin :=
  getBinsLoop deltaRho rhoSeq thetaBins 1 (rhoSeq 0) (rhoBinOf deltaRho (rhoSeq 0)) ∅

theorem getBinsLoop_mem (deltaRho : ℚ) (rhoSeq : ℕ → ℚ) :
    ∀ (steps t : ℕ), 1 ≤ t → ∀ (bins : Finset Bin) (x : Bin),
    (x ∈ getBinsLoop deltaRho rhoSeq steps t (rhoSeq (t - 1))
        (rhoBinOf deltaRho (rhoSeq (t - 1))) bins
      ↔ x ∈ bins ∨
        (t - 1 ≤ x.1 ∧ x.1 < t - 1 + steps
          ∧ (0 ≤ rhoSeq (x.1 + 1) ∨ 0 ≤ rhoSeq x.1)
          ∧ min (rhoBinOf deltaRho (rhoSeq x.1)) (rhoBinOf deltaRho (rhoSeq (x.1 + 1))) ≤ x.2
          ∧ x.2 ≤ max (rhoBinOf deltaRho (rhoSeq x.1))
              (rhoBinOf deltaRho (rhoSeq (x.1 + 1))))) := by
  intro steps
  induction steps with
  | zero =>
    intro t ht bins x
    simp only [getBinsLoop]
    constructor
    · intro h; exact Or.inl h
    · intro h
      rcases h with h | h
      · exact h
      · omega
  | succ steps ih =>
    intro t ht bins x
    rw [getBinsLoop]
    have ht1 : (t + 1) - 1 = t := by omega
    have hrec := ih (t + 1) (by omega)
      (if 0 ≤ rhoSeq t ∨ 0 ≤ rhoSeq (t - 1) then
        bins ∪ (Finset.Icc (min (rhoBinOf deltaRho (rhoSeq (t - 1)))
            (rhoBinOf deltaRho (rhoSeq t)))
          (max (rhoBinOf deltaRho (rhoSeq (t - 1)))
            (rhoBinOf deltaRho (rhoSeq t)))).image (fun rb => (t - 1, rb))
      else bins) x
    rw [ht1] at hrec
    rw [hrec]
    -- membership in the one-step-updated bin set
    have hone : x ∈ (if 0 ≤ rhoSeq t ∨ 0 ≤ rhoSeq (t - 1) then
        bins ∪ (Finset.Icc (min (rhoBinOf deltaRho (rhoSeq (t - 1)))
            (rhoBinOf deltaRho (rhoSeq t)))
          (max (rhoBinOf deltaRho (rhoSeq (t - 1)))
            (rhoBinOf deltaRho (rhoSeq t)))).image (fun rb => (t - 1, rb))
      else bins)
        ↔ x ∈ bins ∨
          ((0 ≤ rhoSeq t ∨ 0 ≤ rhoSeq (t - 1)) ∧ x.1 = t - 1
            ∧ min (rhoBinOf deltaRho (rhoSeq (t - 1))) (rhoBinOf deltaRho (rhoSeq t)) ≤ x.2
            ∧ x.2 ≤ max (rhoBinOf deltaRho (rhoSeq (t - 1)))
                (rhoBinOf deltaRho (rhoSeq t))) := by
      by_cases hc : 0 ≤ rhoSeq t ∨ 0 ≤ rhoSeq (t - 1)
      · rw [if_pos hc, Finset.mem_union, Finset.mem_image]
        constructor
        · intro h
          rcases h with h | ⟨rb, hrb, hx⟩
          · exact Or.inl h
          · rw [Finset.mem_Icc] at hrb
            refine Or.inr ⟨hc, ?_, ?_, ?_⟩
            · rw [← hx]
            · rw [← hx]; exact hrb.1
            · rw [← hx]; exact hrb.2
        · intro h
          rcases h with h | ⟨_, hx1, hlo, hhi⟩
          · exact Or.inl h
          · right
            refine ⟨x.2, Finset.mem_Icc.mpr ⟨hlo, hhi⟩, ?_⟩
            rw [← hx1]
      · rw [if_neg hc]
        constructor
        · intro h; exact Or.inl h
        · intro h
          rcases h with h | ⟨hc', _⟩
          · exact h
          · exact absurd hc' hc
    rw [hone]
    constructor
    · intro h
      rcases h with (h | ⟨hc, hx1, hlo, hhi⟩) | ⟨hge, hlt, hc, hlo, hhi⟩
      · exact Or.inl h
      · right
        have hx1' : x.1 + 1 = t := by omega
        have e1 : rhoSeq (x.1 + 1) = rhoSeq t := by rw [hx1']
        have e2 : rhoSeq x.1 = rhoSeq (t - 1) := by rw [hx1]
        refine ⟨by omega, by omega, ?_, ?_, ?_⟩
        · rw [e1, e2]; exact hc
        · rw [e1, e2]; exact hlo
        · rw [e1, e2]; exact hhi
      · exact Or.inr ⟨by omega, by omega, hc, hlo, hhi⟩
    · intro h
      rcases h with h | ⟨hge, hlt, hc, hlo, hhi⟩
      · exact Or.inl (Or.inl h)
      · by_cases hx1 : x.1 = t - 1
        · left
          right
          have hx1' : x.1 + 1 = t := by omega
          have e1 : rhoSeq (x.1 + 1) = rhoSeq t := by rw [hx1']
          have e2 : rhoSeq x.1 = rhoSeq (t - 1) := by rw [hx1]
          rw [e1, e2] at hc hlo hhi
          exact ⟨hc, hx1, hlo, hhi⟩
        · exact Or.inr ⟨by omega, by omega, hc, hlo, hhi⟩

/-- Characterization of the bins a point votes for: `(θ, r)` is voted
exactly when `θ` indexes one of the `theta_bins` sample steps, the raw `rho`
is non-negative at the step's previous or current sample (a step whose raw
`rho` is negative at both samples contributes no votes), and `r` lies
between the previous and current clamped bin indices (inclusive). -/
theorem getBins_mem (deltaRho : ℚ) (rhoSeq : ℕ → ℚ) (thetaBins : ℕ) (x : Bin) :
    x ∈ getBins deltaRho rhoSeq thetaBins ↔
      (x.1 + 1 ≤ thetaBins
        ∧ (0 ≤ rhoSeq (x.1 + 1) ∨ 0 ≤ rhoSeq x.1)
        ∧ min (rhoBinOf deltaRho (rhoSeq x.1)) (rhoBinOf deltaRho (rhoSeq (x.1 + 1))) ≤ x.2
        ∧ x.2 ≤ max (rhoBinOf deltaRho (rhoSeq x.1))
            (rhoBinOf deltaRho (rhoSeq (x.1 + 1)))) := by
  unfold getBins
  have h := getBinsLoop_mem deltaRho rhoSeq thetaBins 1 (le_refl 1) ∅ x
  have h0 : (1 : ℕ) - 1 = 0 := rfl
  rw [h0] at h
  rw [h]
  constructor
  · rintro (habs | ⟨_, hlt, hrest⟩)
    · exact absurd habs (Finset.not_mem_empty x)
    · exact ⟨by omega, hrest⟩
  · rintro ⟨hle, hrest⟩
    exact Or.inr ⟨Nat.zero_le _, by omega, hrest⟩

/-!
### Space points and the Euclidean distance

`SpacePoint` is declared in the root of the `physics` crate, whose file is
not part of this source tree.  Modelled from the spec §3: a radial distance,
an azimuthal angle and an axial position, with exact field-wise equality.
`f64` coordinates are modelled as `ℚ`.
-/

structure SpacePoint where
  r : ℚ
  phi : ℚ
  z : ℚ
deriving DecidableEq, Repr

/-- The squared Euclidean distance of `distance` (lines 200-208), with the
trigonometric functions abstracted as `cosf`/`sinf`: the source computes
`sqrt((x_a - x_b)^2 + (y_a - y_b)^2 + (z_a - z_b)^2)` after converting to
Cartesian coordinates `x = r * cos(phi)`, `y = r * sin(phi)`. -/
def distSq (cosf sinf : ℚ → ℚ) (a b : SpacePoint) : ℚ :=
  (a.r * cosf a.phi - b.r * cosf b.phi) ^ 2
    + (a.r * sinf a.phi - b.r * sinf b.phi) ^ 2
    + (a.z - b.z) ^ 2

/-- `distance(a, b) <= max_distance` as a decidable predicate: since `sqrt`
is monotone and the threshold is a physical length (non-negative), comparing
the radicand with the squared threshold is the same comparison the source
makes at line 231. -/
def closeOf (cosf sinf : ℚ → ℚ) (d2 : ℚ) (a b : SpacePoint) : Bool :=
  decide (distSq cosf sinf a b ≤ d2)

theorem distSq_comm (cosf sinf : ℚ → ℚ) (a b : SpacePoint) :
    distSq cosf sinf a b = distSq cosf sinf b a := by
  unfold distSq
  ring

theorem closeOf_comm (cosf sinf : ℚ → ℚ) (d2 : ℚ) (a b : SpacePoint) :
    closeOf cosf sinf d2 a b = closeOf cosf sinf d2 b a := by
  unfold closeOf
  rw [distSq_comm]

section Components

variable {α : Type} [DecidableEq α] (close : α → α → Bool)

/-- Occurrence-level connectivity of a list of points: any occurrence reaches
any other through `close` links between occurrences.  This is "the points
form a single connected component under the relation distance ≤ threshold". -/
def ConnList (C : List α) : Prop :=
  ∀ i j : Fin C.length,
    Relation.ReflTransGen (fun a b : Fin C.length => close (C.get a) (C.get b) = true) i j

theorem ReachIn.trans {close : α → α → Bool} {S : Multiset α} {a b c : α}
    (hab : ReachIn close S a b) (hbc : ReachIn close S b c) : ReachIn close S a c := by
  induction hbc with
  | refl => exact hab
  | tail _ hstep hmem ih => exact ReachIn.tail ih hstep hmem

theorem ReachIn.mem_of {close : α → α → Bool} {S : Multiset α} {a b : α}
    (h : ReachIn close S a b) (ha : a ∈ S) : b ∈ S := by
  induction h with
  | refl => exact ha
  | tail _ _ hmem _ => exact hmem

theorem ReachIn.symm {close : α → α → Bool}
    (hsym : ∀ x y : α, close x y = close y x) {S : Multiset α} {a b : α}
    (h : ReachIn close S a b) (ha : a ∈ S) : ReachIn close S b a := by
  induction h with
  | refl => exact ReachIn.refl _
  | @tail x y hax hstep hmem ih =>
    have hbx : ReachIn close S y x := by
      refine ReachIn.tail (ReachIn.refl y) ?_ ?_
      · rw [hsym]
        exact hstep
      · exact ReachIn.mem_of hax ha
    exact hbx.trans ih

/-- Value membership in the multiset of a cluster list is membership in one
of the clusters, located by position. -/
theorem mem_sumCoe_iff (cs : List (List α)) (v : α) :
    v ∈ sumCoe cs ↔ ∃ a : Fin cs.length, v ∈ cs.get a := by
  induction cs with
  | nil =>
    constructor
    · intro h; exact absurd h (by simp [sumCoe])
    · rintro ⟨a, _⟩; exact absurd a.2 (by simp)
  | cons c rest ih =>
    show v ∈ (c : Multiset α) + sumCoe rest ↔ _
    rw [Multiset.mem_add]
    constructor
    · rintro (h | h)
      · exact ⟨⟨0, by simp⟩, by simpa using h⟩
      · obtain ⟨a, ha⟩ := ih.mp h
        exact ⟨a.succ, ha⟩
    · rintro ⟨a, ha⟩
      rcases Fin.eq_zero_or_eq_succ a with rfl | ⟨a', rfl⟩
      · left
        simpa using ha
      · right
        exact ih.mpr ⟨a', ha⟩

/-- Position form of pairwise mutual closedness, symmetrized. -/
theorem pairwiseSym_of (hsym : ∀ x y : α, close x y = close y x)
    {cs : List (List α)}
    (hpair : cs.Pairwise (fun K K' => ∀ x ∈ K, ∀ y ∈ K', close x y = false)) :
    ∀ a b : Fin cs.length, a ≠ b →
      ∀ x ∈ cs.get a, ∀ y ∈ cs.get b, close x y = false := by
  intro a b hab x hx y hy
  rcases lt_or_gt_of_ne (fun h => hab (Fin.ext h)) with hlt | hgt
  · exact List.pairwise_iff_get.mp hpair a b hlt x hx y hy
  · rw [hsym]
    exact List.pairwise_iff_get.mp hpair b a hgt y hy x hx

/-- A value linked by `close` to a value stored in the partition lies in a
unique cluster position. -/
theorem position_unique (hsym : ∀ x y : α, close x y = close y x)
    {cs : List (List α)}
    (hpair : cs.Pairwise (fun K K' => ∀ x ∈ K, ∀ y ∈ K', close x y = false))
    {v u : α} (hvu : close v u = true) {c : Fin cs.length} (hu : u ∈ cs.get c) :
    ∀ a : Fin cs.length, v ∈ cs.get a → a = c := by
  intro a hv
  by_contra hac
  have hfalse := pairwiseSym_of close hsym hpair a c hac v hv u hu
  rw [hvu] at hfalse
  simp at hfalse

/-- Count of a value across a cluster list that stores it at a unique
position. -/
theorem count_sumCoe_single (v : α) :
    ∀ (cs : List (List α)) (a : Fin cs.length), v ∈ cs.get a →
    (∀ b : Fin cs.length, v ∈ cs.get b → b = a) →
    Multiset.count v (sumCoe cs) = Multiset.count v ((cs.get a : List α) : Multiset α) := by
  intro cs
  induction cs with
  | nil => intro a; exact absurd a.2 (by simp)
  | cons c rest ih =>
    intro a hv huniq
    rcases Fin.eq_zero_or_eq_succ a with rfl | ⟨a', rfl⟩
    · have hrest : v ∉ sumCoe rest := by
        intro hmem
        obtain ⟨b, hb⟩ := (mem_sumCoe_iff rest v).mp hmem
        have hb0 := huniq b.succ (by simpa using hb)
        exact Fin.succ_ne_zero b hb0
      show Multiset.count v ((c : Multiset α) + sumCoe rest) = _
      rw [Multiset.count_add, Multiset.count_eq_zero.mpr hrest, add_zero]
      rfl
    · have hvc : v ∉ c := by
        intro hvc
        have h0 := huniq ⟨0, by simp⟩ (by simpa using hvc)
        exact Fin.succ_ne_zero a' h0.symm
      show Multiset.count v ((c : Multiset α) + sumCoe rest) = _
      rw [Multiset.count_add, Multiset.count_eq_zero.mpr (by simpa using hvc), zero_add]
      have huniq' : ∀ b : Fin rest.length, v ∈ rest.get b → b = a' := by
        intro b hb
        have hsucc := huniq b.succ (by simpa using hb)
        exact Fin.succ_injective _ hsucc
      have hres := ih a' (by simpa using hv) huniq'
      simpa using hres

/-- An occurrence-connected collection drawn from a mutually-closed cluster
partition fits, as a multiset, inside a single cluster. -/
theorem conn_le_cluster (hsym : ∀ x y : α, close x y = close y x)
    {cs : List (List α)}
    (hpair : cs.Pairwise (fun K K' => ∀ x ∈ K, ∀ y ∈ K', close x y = false))
    (C : List α) (hle : (C : Multiset α) ≤ sumCoe cs)
    (hconn : ConnList close C) (hne : C ≠ []) :
    ∃ K ∈ cs, (C : Multiset α) ≤ (K : Multiset α) := by
  have hlen0 : 0 < C.length := List.length_pos_of_ne_nil hne
  have hsome : ∀ i : Fin C.length, ∃ a : Fin cs.length, C.get i ∈ cs.get a := by
    intro i
    refine (mem_sumCoe_iff cs (C.get i)).mp ?_
    refine Multiset.mem_of_le hle ?_
    rw [Multiset.mem_coe]
    exact C.get_mem i i.2
  by_cases hC1 : C.length = 1
  · obtain ⟨x, hx⟩ := List.length_eq_one.mp hC1
    subst hx
    obtain ⟨a, ha⟩ := hsome ⟨0, hlen0⟩
    refine ⟨cs.get a, cs.get_mem a a.2, ?_⟩
    have hax : x ∈ cs.get a := ha
    rw [Multiset.coe_singleton, Multiset.singleton_le]
    simpa using hax
  · have h2 : 2 ≤ C.length := by omega
    have hnbr : ∀ i : Fin C.length, ∃ w : Fin C.length,
        close (C.get i) (C.get w) = true := by
      intro i
      have hj : ∃ j : Fin C.length, j ≠ i := by
        rcases i with ⟨iv, hiv⟩
        by_cases h0 : iv = 0
        · exact ⟨⟨1, by omega⟩, by simp [Fin.ext_iff, h0]⟩
        · exact ⟨⟨0, by omega⟩, by
            simp only [ne_eq, Fin.ext_iff]
            omega⟩
      obtain ⟨j, hj⟩ := hj
      rcases (hconn i j).cases_head with heq | ⟨w, hw, _⟩
      · exact absurd heq (fun h => hj h.symm)
      · exact ⟨w, hw⟩
    obtain ⟨a₀, ha₀⟩ := hsome ⟨0, hlen0⟩
    have hall : ∀ i : Fin C.length, C.get i ∈ cs.get a₀ := by
      intro i
      have hpath := hconn ⟨0, hlen0⟩ i
      induction hpath with
      | refl => exact ha₀
      | @tail m w hpm hstep ih =>
        obtain ⟨b, hb⟩ := hsome w
        have hba := position_unique close hsym hpair hstep hb a₀ ih
        rw [hba]
        exact hb
    have huniq : ∀ i : Fin C.length, ∀ b : Fin cs.length,
        C.get i ∈ cs.get b → b = a₀ := by
      intro i b hb
      obtain ⟨w, hw⟩ := hnbr i
      exact position_unique close hsym hpair hw (hall w) b hb
    refine ⟨cs.get a₀, cs.get_mem a₀ a₀.2, ?_⟩
    rw [Multiset.le_iff_count]
    intro v
    by_cases hv : v ∈ C
    · obtain ⟨i, rfl⟩ := List.mem_iff_get.mp hv
      have h1 : Multiset.count (C.get i) (C : Multiset α)
          ≤ Multiset.count (C.get i) (sumCoe cs) :=
        Multiset.le_iff_count.mp hle (C.get i)
      have h2 := count_sumCoe_single (C.get i) cs a₀ (hall i) (huniq i)
      rw [← h2]
      exact h1
    · rw [Multiset.count_eq_zero.mpr (by simpa using hv)]
      exact Nat.zero_le _

end Components

section LargestClusterProps

variable {α : Type} [DecidableEq α] (close : α → α → Bool)

/-- Value-level form of `mem_sumCoe_iff`. -/
theorem mem_sumCoe_iff' (cs : List (List α)) (v : α) :
    v ∈ sumCoe cs ↔ ∃ K ∈ cs, v ∈ K := by
  rw [mem_sumCoe_iff]
  constructor
  · rintro ⟨a, ha⟩
    exact ⟨cs.get a, cs.get_mem a a.2, ha⟩
  · rintro ⟨K, hK, hv⟩
    obtain ⟨a, ha⟩ := List.mem_iff_get.mp hK
    exact ⟨a, by rw [ha]; exact hv⟩

/-- The flood-fill clusters carry exactly the input points. -/
theorem buildClusters_coe' (pts : List α) :
    sumCoe (buildClusters close pts.length pts []) = (pts : Multiset α) := by
  rw [buildClusters_coe close pts.length pts [] (le_refl _)]
  show sumCoe [] + _ = _
  rw [show sumCoe ([] : List (List α)) = 0 from rfl, zero_add]

/-- The structural facts about the flood-fill cluster list for an arbitrary
input. -/
theorem buildClusters_props' (pts : List α) :
    (buildClusters close pts.length pts []).Pairwise
        (fun K K' => ∀ x ∈ K, ∀ y ∈ K', close x y = false)
    ∧ ∀ K ∈ buildClusters close pts.length pts [], K ≠ [] ∧ ClusterConn close K :=
  buildClusters_props close pts.length pts [] (le_refl _) (by simp) List.Pairwise.nil
    (by simp)

/-- The returned cluster is internally connected: every member reaches every
other member through `close` links inside the cluster. -/
theorem largestCluster_conn (hsym : ∀ x y : α, close x y = close y x) (pts : List α) :
    ∀ x ∈ largestCluster close pts, ∀ y ∈ largestCluster close pts,
      ReachIn close (largestCluster close pts : Multiset α) x y := by
  intro x hx y hy
  rcases largestCluster_mem close pts with hemp | hmem
  · rw [hemp] at hx
    simp at hx
  · obtain ⟨-, s, hs, hreach⟩ := (buildClusters_props' close pts).2 _ hmem
    have hxr : ReachIn close (largestCluster close pts : Multiset α) x s := by
      refine ReachIn.symm hsym (hreach x hx) ?_
      rw [Multiset.mem_coe]
      exact hs
    exact hxr.trans (hreach y hy)

/-- The returned cluster is closed: no point of the input outside it is close
to any of its members. -/
theorem largestCluster_closed (hsym : ∀ x y : α, close x y = close y x) (pts : List α) :
    ∀ y ∈ (pts : Multiset α) - (largestCluster close pts : Multiset α),
      ∀ x ∈ largestCluster close pts, close x y = false := by
  intro y hy x hx
  rcases largestCluster_mem close pts with hemp | hmem
  · rw [hemp] at hx
    simp at hx
  · obtain ⟨l₁, l₂, hsplit⟩ := List.append_of_mem hmem
    have hpair := (buildClusters_props' close pts).1
    have hsum := buildClusters_coe' close pts
    have hrest : (pts : Multiset α) - (largestCluster close pts : Multiset α)
        = sumCoe l₁ + sumCoe l₂ := by
      rw [← hsum, hsplit, sumCoe_append]
      show sumCoe l₁ + ((largestCluster close pts : Multiset α) + sumCoe l₂) - _ = _
      rw [add_comm ((largestCluster close pts : Multiset α)) (sumCoe l₂), ← add_assoc,
        add_tsub_cancel_right]
    rw [hrest] at hy
    rw [hsplit] at hpair
    rw [List.pairwise_append] at hpair
    obtain ⟨hp₁, hp₂, hcross⟩ := hpair
    rcases Multiset.mem_add.mp hy with hy₁ | hy₂
    · obtain ⟨K, hK, hyK⟩ := (mem_sumCoe_iff' l₁ y).mp hy₁
      have hrel := hcross K hK (largestCluster close pts) (List.mem_cons_self _ _)
      rw [hsym]
      exact hrel y hyK x hx
    · obtain ⟨K, hK, hyK⟩ := (mem_sumCoe_iff' l₂ y).mp hy₂
      have hrel := (List.pairwise_cons.mp hp₂).1 K hK
      exact hrel x hx y hyK

/-- No occurrence-connected collection drawn from the input has more points
than the returned cluster. -/
theorem largestCluster_maximal (hsym : ∀ x y : α, close x y = close y x) (pts : List α) :
    ∀ C : List α, (C : Multiset α) ≤ (pts : Multiset α) → ConnList close C →
      C.length ≤ (largestCluster close pts).length := by
  intro C hle hconn
  by_cases hne : C = []
  · subst hne
    simp
  · obtain ⟨K, hK, hCK⟩ := conn_le_cluster close hsym (buildClusters_props' close pts).1
      C (by rw [buildClusters_coe' close pts]; exact hle) hconn hne
    have h1 : C.length ≤ K.length := by
      have := Multiset.card_le_card hCK
      simpa using this
    exact le_trans h1 (largestCluster_max close pts K hK)

end LargestClusterProps

/-!
### The claims

Each claim of the specification is settled by one theorem below.  The
concrete functions `blW`, `closeW`, `blD1`, `blD2` instantiate the abstract
bin-assignment and closeness parameters for witnesses and counterexamples:
`blD1`/`blD2` assign the same *set* of Hough bins to every point and differ
only in the iteration order of point `0`'s two bins, i.e. they are two runs
of the same computation under two hash-set iteration orders.
-/

def blW : ℕ → List Bin
  | _ => [(0, 0)]

def closeW : ℕ → ℕ → Bool := fun _ _ => true

def blD1 : ℕ → List Bin
  | 0 => [(0, 0), (0, 1)]
  | 1 => [(0, 1)]
  | _ => [(0, 0)]

def blD2 : ℕ → List Bin
  | 0 => [(0, 1), (0, 0)]
  | 1 => [(0, 1)]
  | _ => [(0, 0)]

theorem blW_nodup : ∀ p : ℕ, (blW p).Nodup := by
  intro p
  show ([((0 : ℕ), (0 : ℕ))] : List Bin).Nodup
  decide

theorem blD1_nodup : ∀ p : ℕ, (blD1 p).Nodup := by
  intro p
  rcases p with _ | _ | n
  · show ([((0 : ℕ), (0 : ℕ)), ((0 : ℕ), (1 : ℕ))] : List Bin).Nodup
    decide
  · show ([((0 : ℕ), (1 : ℕ))] : List Bin).Nodup
    decide
  · show ([((0 : ℕ), (0 : ℕ))] : List Bin).Nodup
    decide

/-- `blD1` and `blD2` give every point the same set of bins; they differ
only in iteration order. -/
theorem blD1_blD2_same_bins : ∀ (p : ℕ) (b : Bin), b ∈ blD1 p ↔ b ∈ blD2 p := by
  intro p b
  rcases p with _ | _ | n
  · show b ∈ [(0, 0), (0, 1)] ↔ b ∈ [(0, 1), (0, 0)]
    simp [or_comm]
  · exact Iff.rfl
  · exact Iff.rfl

/-- C1: for every input vector and every configuration, the multiset union
of the points of every cluster of the returned `ClusteringResult` together
with its remainder equals the multiset of input points — no point is
duplicated and none is lost, whatever the order of the input.  (`bl` has no
duplicate bins per point since `get_bins` returns a `HashSet`.) -/
theorem C1_partition {α : Type} [DecidableEq α] (bl : α → List Bin)
    (close : α → α → Bool) (hnd : ∀ p : α, (bl p).Nodup) (sp : List α)
    (maxC minC : ℕ) (res : ClusteringResult α)
    (heq : clusterSpacepoints bl close sp maxC minC = some res) :
    sumCoe res.clusters + (res.remainder : Multiset α) = (sp : Multiset α) := by
  obtain ⟨res₀, heq₀, hpart, -, -⟩ := clusterSpacepoints_spec bl close hnd sp maxC minC
  rw [heq] at heq₀
  obtain rfl := Option.some.inj heq₀
  exact hpart

theorem C1_partition_witness :
    sumCoe ([[1, 0]] : List (List ℕ)) + (([2] : List ℕ) : Multiset ℕ)
      = (([0, 1, 2] : List ℕ) : Multiset ℕ) :=
  C1_partition blD1 closeW blD1_nodup
    [0, 1, 2] 1 1 ⟨[[1, 0]], [2]⟩ (by decide)

/-- C2 counterexample: `cluster_spacepoints` is not deterministic across
runs.  `blD1` and `blD2` are the bin sequences of two runs that differ only
in the iteration order of one point's `get_bins` hash set (see
`blD1_blD2_same_bins`); the two runs tie two Hough bins at two votes each,
`most_popular` breaks the tie by iteration order (Rust `max_by_key` keeps
the last maximal element of the randomly-seeded `HashMap` iteration), and
the final `ClusteringResult`s differ. -/
theorem C2_counterexample :
    clusterSpacepoints blD1 closeW [0, 1, 2] 1 1
      ≠ clusterSpacepoints blD2 closeW [0, 1, 2] 1 1 := by
  decide

/-- C2 (amended): the population of the bin `most_popular` selects is
independent of the hash map's iteration order — two runs can differ only in
*which* maximally-populated bin they extract, never in its size; and for a
fixed iteration order the whole computation is a function of its inputs. -/
theorem C2_amended {α : Type} [DecidableEq α] (m₁ m₂ : AccMap α)
    (hp : m₁.Perm m₂) :
    (mostPopular m₁).length = (mostPopular m₂).length :=
  mostPopular_length_perm m₁ m₂ hp

theorem C2_amended_witness :
    (([((0, 0), [1]), ((0, 1), [2, 3])] : AccMap ℕ).Perm
        [((0, 1), [2, 3]), ((0, 0), [1])])
    ∧ (mostPopular ([((0, 0), [1]), ((0, 1), [2, 3])] : AccMap ℕ)).length
      = (mostPopular ([((0, 1), [2, 3]), ((0, 0), [1])] : AccMap ℕ)).length :=
  ⟨by decide, C2_amended _ _ (by decide)⟩

/-- C3: the returned `ClusteringResult` has at most `max_num_clusters`
clusters, and every cluster in it has at least
`min_num_points_per_cluster` points. -/
theorem C3_bounds {α : Type} [DecidableEq α] (bl : α → List Bin)
    (close : α → α → Bool) (hnd : ∀ p : α, (bl p).Nodup) (sp : List α)
    (maxC minC : ℕ) (res : ClusteringResult α)
    (heq : clusterSpacepoints bl close sp maxC minC = some res) :
    res.clusters.length ≤ maxC ∧ ∀ c ∈ res.clusters, minC ≤ c.length := by
  obtain ⟨res₀, heq₀, -, hlen, hmin⟩ := clusterSpacepoints_spec bl close hnd sp maxC minC
  rw [heq] at heq₀
  obtain rfl := Option.some.inj heq₀
  exact ⟨hlen, hmin⟩

theorem C3_bounds_witness :
    ([[1, 0]] : List (List ℕ)).length ≤ 1 ∧ 1 ≤ ([1, 0] : List ℕ).length :=
  ⟨(C3_bounds blW closeW blW_nodup [0, 1] 1 1 ⟨[[1, 0]], []⟩ (by decide)).1,
    (C3_bounds blW closeW blW_nodup [0, 1] 1 1 ⟨[[1, 0]], []⟩ (by decide)).2
      [1, 0] (by decide)⟩

/-- C4 counterexample: with `min_num_points_per_cluster = 0` the orchestrator
pushes the *empty* clusters that `best_cluster` returns once the accumulator
is exhausted (`0 < 0` is false, so the `break` is not taken), until
`max_num_clusters` is reached: the result for two points with
`max_num_clusters = 3, min_num_points_per_cluster = 0` contains two empty
clusters, refuting the claim for the configuration it explicitly includes. -/
theorem C4_counterexample :
    clusterSpacepoints blW closeW [0, 1] 3 0
        = some ⟨[[1, 0], [], []], []⟩
    ∧ ([] : List ℕ) ∈ [[1, 0], [], []] := by
  constructor
  · decide
  · decide

/-- C4 (amended): every cluster of a returned `ClusteringResult` is
non-empty provided `min_num_points_per_cluster ≥ 1`; with
`min_num_points_per_cluster = 0` empty clusters can be returned (see the
counterexample). -/
theorem C4_nonempty {α : Type} [DecidableEq α] (bl : α → List Bin)
    (close : α → α → Bool) (hnd : ∀ p : α, (bl p).Nodup) (sp : List α)
    (maxC minC : ℕ) (hmin : 1 ≤ minC) (res : ClusteringResult α)
    (heq : clusterSpacepoints bl close sp maxC minC = some res) :
    ∀ c ∈ res.clusters, c ≠ [] := by
  obtain ⟨res₀, heq₀, -, -, hminall⟩ := clusterSpacepoints_spec bl close hnd sp maxC minC
  rw [heq] at heq₀
  obtain rfl := Option.some.inj heq₀
  intro c hc hemp
  have h1 := hminall c hc
  rw [hemp] at h1
  simp at h1
  omega

theorem C4_nonempty_witness : ([1, 0] : List ℕ) ≠ [] :=
  C4_nonempty blW closeW blW_nodup [0, 1] 1 1 (by decide)
    ⟨[[1, 0]], []⟩ (by decide) [1, 0] (by decide)

/-- C5: characterization of the Hough bins a point votes for.  A key
`(θ, r)` is voted exactly when: `θ` indexes one of the `theta_bins` sample
steps; the raw (unclamped) `rho` is non-negative at the step's previous or
current sample — equivalently, a step contributes no votes exactly when the
raw `rho` is negative at both samples; and `r` lies between the previous and
the current sample's clamped bin indices, inclusive (negative `rho` values
are clamped to bin `0` inside `rhoBinOf` by the saturating `as u32` cast).
The result is a `Finset`, so each key is voted at most once per point. -/
theorem C5_get_bins (deltaRho : ℚ) (rhoSeq : ℕ → ℚ) (thetaBins : ℕ) (x : Bin) :
    x ∈ getBins deltaRho rhoSeq thetaBins ↔
      (x.1 + 1 ≤ thetaBins
        ∧ (0 ≤ rhoSeq (x.1 + 1) ∨ 0 ≤ rhoSeq x.1)
        ∧ min (rhoBinOf deltaRho (rhoSeq x.1)) (rhoBinOf deltaRho (rhoSeq (x.1 + 1))) ≤ x.2
        ∧ x.2 ≤ max (rhoBinOf deltaRho (rhoSeq x.1))
            (rhoBinOf deltaRho (rhoSeq (x.1 + 1)))) :=
  getBins_mem deltaRho rhoSeq thetaBins x

/-- C6: frame effect of `best_cluster` — when the greedy extractor returns
from a reachable accumulator state, every bin's contents equal its contents
on entry minus exactly the winning cluster's points that voted for that bin;
points outside the winning cluster are untouched. -/
theorem C6_frame {α : Type} [DecidableEq α] (bl : α → List Bin)
    (close : α → α → Bool) (hnd : ∀ p : α, (bl p).Nodup) (V : Multiset α)
    (acc : AccMap α) (hwf : AccWF acc) (hg : GOOD bl V acc) (fuel : ℕ)
    (hfuel : V.card + 1 ≤ fuel) (acc' : AccMap α) (w : List α)
    (heq : bestClusterGo bl close fuel acc [] = some (acc', w)) :
    ∀ b : Bin, (binList acc' b : Multiset α)
      = (binList acc b : Multiset α)
        - ((w.filter (fun p => decide (b ∈ bl p)) : List α) : Multiset α) := by
  have hg0 : GOOD bl (V - (([] : List α) : Multiset α)) acc := by simpa using hg
  obtain ⟨acc₀, w₀, heq₀, -, hg', hwV, -, -⟩ :=
    bestClusterGo_spec bl close hnd V fuel acc [] hwf hg0 (by simp) (by simp; omega)
  rw [heq] at heq₀
  obtain ⟨rfl, rfl⟩ : acc' = acc₀ ∧ w = w₀ := by
    have := Option.some.inj heq₀
    exact ⟨congrArg Prod.fst this, congrArg Prod.snd this⟩
  intro b
  rw [hg' b, hg b, coe_list_filter, Multiset.filter_sub]

theorem C6_frame_witness :
    (binList ([((0, 0), ([] : List ℕ))]) (0, 0) : Multiset ℕ)
      = (binList (accAddAll blW [] [0, 1]) (0, 0) : Multiset ℕ)
        - ((([1, 0] : List ℕ).filter (fun p => decide ((0, 0) ∈ blW p)) : List ℕ)
            : Multiset ℕ) :=
  C6_frame blW closeW blW_nodup (([0, 1] : List ℕ) : Multiset ℕ)
    (accAddAll blW [] [0, 1]) (accWF_accAddAll blW accWF_nil [0, 1])
    (GOOD_init blW blW_nodup [0, 1]) 3 (by decide)
    [((0, 0), [])] [1, 0] (by decide) (0, 0)

/-- C7: the hill-climbing loop of `best_cluster` terminates from every
reachable accumulator state: an iteration budget of one more than the number
of available points always suffices (each accepted iteration strictly grows
the committed candidate, whose size is bounded by the available point
count); the winner is drawn from the available points; and on exit the
just-tried candidate is no larger than the returned best, which is returned
without further mutation of the accumulator. -/
theorem C7_termination {α : Type} [DecidableEq α] (bl : α → List Bin)
    (close : α → α → Bool) (hnd : ∀ p : α, (bl p).Nodup) (V : Multiset α)
    (acc : AccMap α) (hwf : AccWF acc) (hg : GOOD bl V acc) (fuel : ℕ)
    (hfuel : V.card + 1 ≤ fuel) :
    ∃ acc' w, bestClusterGo bl close fuel acc [] = some (acc', w)
      ∧ (w : Multiset α) ≤ V
      ∧ (largestCluster close (mostPopular acc')).length ≤ w.length := by
  have hg0 : GOOD bl (V - (([] : List α) : Multiset α)) acc := by simpa using hg
  obtain ⟨acc', w, heq, -, -, hwV, -, hexit⟩ :=
    bestClusterGo_spec bl close hnd V fuel acc [] hwf hg0 (by simp) (by simp; omega)
  exact ⟨acc', w, heq, hwV, hexit⟩

theorem C7_termination_witness :
    (bestClusterGo blW closeW 3 (accAddAll blW [] [0, 1]) []).isSome = true := by
  obtain ⟨acc', w, heq, -, -⟩ := C7_termination blW closeW blW_nodup
    (([0, 1] : List ℕ) : Multiset ℕ) (accAddAll blW [] [0, 1])
    (accWF_accAddAll blW accWF_nil [0, 1])
    (GOOD_init blW blW_nodup [0, 1]) 3 (by decide)
  rw [heq]
  rfl

/-- C8: `largest_cluster` returns a sub-multiset of its input that is a
single connected component under the closeness relation (its members are
pairwise connected through chains of close links inside it, and no input
point outside it is close to any of its members), no occurrence-connected
collection drawn from the input has strictly more points, and the empty
input yields the empty collection.  The relation is
`distance(a, b) <= max_distance` with the true 3-D Euclidean distance after
cylindrical-to-Cartesian conversion, compared in squared form (`closeOf`). -/
theorem C8_largest_cluster (cosf sinf : ℚ → ℚ) (d2 : ℚ) (pts : List SpacePoint) :
    (largestCluster (closeOf cosf sinf d2) pts : Multiset SpacePoint)
        ≤ (pts : Multiset SpacePoint)
    ∧ (∀ x ∈ largestCluster (closeOf cosf sinf d2) pts,
        ∀ y ∈ largestCluster (closeOf cosf sinf d2) pts,
          ReachIn (closeOf cosf sinf d2)
            (largestCluster (closeOf cosf sinf d2) pts : Multiset SpacePoint) x y)
    ∧ (∀ y ∈ (pts : Multiset SpacePoint)
          - (largestCluster (closeOf cosf sinf d2) pts : Multiset SpacePoint),
        ∀ x ∈ largestCluster (closeOf cosf sinf d2) pts,
          closeOf cosf sinf d2 x y = false)
    ∧ (∀ C : List SpacePoint, (C : Multiset SpacePoint) ≤ (pts : Multiset SpacePoint) →
        ConnList (closeOf cosf sinf d2) C →
          C.length ≤ (largestCluster (closeOf cosf sinf d2) pts).length)
    ∧ (pts = [] → largestCluster (closeOf cosf sinf d2) pts = []) := by
  refine ⟨largestCluster_coe_le _ pts,
    largestCluster_conn _ (closeOf_comm cosf sinf d2) pts,
    largestCluster_closed _ (closeOf_comm cosf sinf d2) pts,
    largestCluster_maximal _ (closeOf_comm cosf sinf d2) pts, ?_⟩
  intro h
  subst h
  rfl

/-- C9: for the empty input and every configuration, `cluster_spacepoints`
returns immediately (the `rho_max` reduction yields `None`) with an empty
cluster list and an empty remainder. -/
theorem C9_empty {α : Type} [DecidableEq α] (bl : α → List Bin)
    (close : α → α → Bool) (maxC minC : ℕ) :
    clusterSpacepoints bl close [] maxC minC = some ⟨[], []⟩ := rfl

/-- C10: `cluster_spacepoints` never panics: the remainder computation's
`position(...).unwrap()` always succeeds, because every clustered point
occurs (by exact value equality) in the input at the moment it is removed.
In this `ℚ` model equality is reflexive (`NaN` is not representable), which
is the claim's hypothesis; totality of the model (`isSome`) is exactly the
absence of the panic. -/
theorem C10_no_panic {α : Type} [DecidableEq α] (bl : α → List Bin)
    (close : α → α → Bool) (hnd : ∀ p : α, (bl p).Nodup) (sp : List α)
    (maxC minC : ℕ) :
    (clusterSpacepoints bl close sp maxC minC).isSome = true := by
  obtain ⟨res, heq, -, -, -⟩ := clusterSpacepoints_spec bl close hnd sp maxC minC
  rw [heq]
  rfl

theorem C10_no_panic_witness :
    (clusterSpacepoints blW closeW [0, 1] 1 1).isSome = true :=
  C10_no_panic blW closeW blW_nodup [0, 1] 1 1

end AlphaG
